import Mathlib

/-!
Verification development for the hybrid array/hash table of this repository
(src/HashWrapper.h, src/Table.h).  The C++ code is shallowly embedded:

* machine integers are modelled as `Nat`/`Int` with explicit `% 2^64` where
  the C++ performs unsigned 64-bit wrap-around or signed-to-unsigned
  conversion;
* `double` payloads of `Number` keys are modelled by `NumV` (NaN, signed
  infinity, or an exact finite value), with IEEE equality semantics and the
  `frexp`-based hash of `Key::hash_NUM`;
* the only type the repository registers in the hash registry is `Int`
  (`register_hashes` in src/HashWrapper.h), so the `Extensible` (`H`) key
  kind is modelled as that registered payload together with its cached hash
  (`0` = not yet computed);
* the hash segment is an arena of `Node`s addressed by index; the C++
  `Node*` pointers `next` and `vacancy_next` become `Option Nat` indices;
* the unbounded pointer walks of query/erase/insert are given fuel
  `hseg.length + 1`; running out of fuel (only possible on states with
  cyclic chains, which the C++ code would never terminate on) is modelled
  as reaching a null pointer;
* `std::shared_ptr<Value>` slots are modelled as `Option V` (the C++ code
  never stores an empty `std::any`, so a null pointer and an empty value
  coincide).
-/

namespace HT

/-- 64-bit wrap-around modulus. -/
def U64 : Nat := 2 ^ 64

/-- Payload of a `Number` (C++ `double`) key: NaN, a signed infinity, or an
exact finite value. -/
inductive NumV where
  | nan : NumV
  | inf : Bool → NumV
  | fin : ℚ → NumV
deriving DecidableEq

/-- The key model of src/HashWrapper.h (`class Key`): a tagged union over
the tags `INT, NUM, STR, PTR, H`.  The `H` variant carries the registered
payload (the repository registers exactly the type `Int`, whose payload is
a `long long`) and the cached hash stored in `HashWrapper::hash`
(`0` = not yet computed). -/
inductive Key where
  | KInt : Int → Key
  | KNum : NumV → Key
  | KStr : List Nat → Key
  | KPtr : Nat → Key
  | KH : Int → Nat → Key
deriving DecidableEq

/-- `hash_INT` / `Int::hash`: `i` if `i ≥ 0`, else the bitwise complement
`~i = -i-1` (as an unsigned value). -/
def intHash (i : Int) : Nat := if 0 ≤ i then i.toNat else (-(i+1)).toNat

/-- One step of `hash_STR`: `hash ^= (hash << 5) + (hash >> 2) + c`,
with the addition wrapping at 64 bits. -/
def strStep (h c : Nat) : Nat := h ^^^ (((h <<< 5) + (h >>> 2) + c) % U64)

/-- `hash_STR`: seed `1829732`, then fold `strStep` over the bytes. -/
def strHash (s : List Nat) : Nat := s.foldl strStep 1829732

/-- Truncation toward zero, as the C++ cast of a `double` to an integer. -/
def ratTrunc (q : ℚ) : Int := if 0 ≤ q then Int.floor q else Int.ceil q

/-- `hash_NUM`: `frexp` decomposes a nonzero finite `n` as `frac * 2^p`
with `1/2 ≤ |frac| < 1` (so `p = Int.log 2 |q| + 1`); the hash is
`(Hash)(frac * 2^31) + p` (the cast wraps at 64 bits); NaN and infinities
hash to `0`. -/
def numHash : NumV → Nat
  | NumV.nan => 0
  | NumV.inf _ => 0
  | NumV.fin q =>
    if q = 0 then 0
    else
      (((ratTrunc (q * (2:ℚ) ^ ((31:Int) - (Int.log 2 |q| + 1)))) +
        (Int.log 2 |q| + 1)).emod ((U64 : Int))).toNat

/-- `Key::hash` as a pure function of the key value.  For the `H` tag this
is `get_hash`: the cached hash if nonzero, otherwise the registered hash
function of the payload (the repository registers only `Int::hash`). -/
def hashK : Key → Nat
  | Key.KInt i => intHash i
  | Key.KNum n => numHash n
  | Key.KStr s => strHash s
  | Key.KPtr p => p
  | Key.KH p c => if c ≠ 0 then c else intHash p

/-- `get_hash` with its caching side effect on the key: returns the hash
and the key with the cache updated (`v.hash = it->second(v)`). -/
def keyHashC : Key → Nat × Key
  | Key.KH p c => if c ≠ 0 then (c, Key.KH p c) else (intHash p, Key.KH p (intHash p))
  | k => (hashK k, k)

/-- The cache of an `H` key is either unset or holds the value the
registered hash function computes; built-in kinds carry no cache. -/
def cacheOK : Key → Prop
  | Key.KH p c => c = 0 ∨ c = intHash p
  | _ => True

/-- IEEE `==` on `double` payloads: NaN is unequal to everything
(including itself); infinities compare by sign; finite values by value. -/
def numEq : NumV → NumV → Bool
  | NumV.nan, _ => false
  | _, NumV.nan => false
  | NumV.inf a, NumV.inf b => a == b
  | NumV.fin q, NumV.fin r => q == r
  | _, _ => false

/-- `Key::operator==`: different tags are unequal; same tags compare their
payloads (`H` keys compare runtime type — a single registered type here —
and then the payloads; the cached hash does not participate). -/
def keyEq : Key → Key → Bool
  | Key.KInt a, Key.KInt b => a == b
  | Key.KNum a, Key.KNum b => numEq a b
  | Key.KStr a, Key.KStr b => a == b
  | Key.KPtr a, Key.KPtr b => a == b
  | Key.KH a _, Key.KH b _ => a == b
  | _, _ => false

/-- `*mp->key == *key` where `mp->key` may be null (only on junk states the
C++ code would fault on): a missing key compares unequal. -/
def keyEqO (ok : Option Key) (k : Key) : Bool :=
  match ok with
  | some kk => keyEq kk k
  | none => false

/-- A hash-segment slot (`Table::Node`): optional key, optional value,
chain link `next`, free-list link `vacancy_next`.  A slot is empty iff its
value is absent. -/
structure Node (V : Type) where
  key : Option Key
  value : Option V
  next : Option Nat
  vnext : Option Nat
deriving DecidableEq

instance (V : Type) : Inhabited (Node V) := ⟨⟨none, none, none, none⟩⟩

/-- The hybrid table (`class Table`): array segment `arr` of length
`2^arrLog2`, hash segment `hseg` of length `2^hashLog2`, the free-list head
`vacancy` (`vacancy_head`) and the backward scan cursor `lastFree`
(`last_free`). -/
structure Table (V : Type) where
  arrLog2 : Nat
  hashLog2 : Nat
  arr : List (Option V)
  hseg : List (Node V)
  vacancy : Option Nat
  lastFree : Nat
deriving DecidableEq

/-- `Table::array_size()` = `1 << array_size_log2`. -/
def Table.arraySize (t : Table V) : Nat := 2 ^ t.arrLog2

/-- `Table::hash_size()` = `1 << hash_size_log2`. -/
def Table.hashSize (t : Table V) : Nat := 2 ^ t.hashLog2

/-- The constructor `Table(array_size_log2, hash_size_log2)`: empty
segments, null free list, scan cursor at the last hash slot. -/
def mkTable (V : Type) (aLog hLog : Nat) : Table V :=
  { arrLog2 := aLog, hashLog2 := hLog,
    arr := List.replicate (2 ^ aLog) none,
    hseg := List.replicate (2 ^ hLog) default,
    vacancy := none, lastFree := 2 ^ hLog - 1 }

/-- The signed 64-bit `key->item()` converted to `unsigned long`, as in the
comparisons `key->item() < array_size()`. -/
def uitem (i : Int) : Nat := (i.emod ((U64 : Int))).toNat

/-- The guard `key->type() == INT && key->item() < array_size()` (an
unsigned comparison, so negative items never qualify). -/
def inArrRange (k : Key) (asz : Nat) : Bool :=
  match k with
  | Key.KInt i => decide (uitem i < asz)
  | _ => false

/-- The array index used once the guard holds. -/
def arrIdx (k : Key) : Nat :=
  match k with
  | Key.KInt i => uitem i
  | _ => 0

/-- `Table::main_pos`: `key->hash() & (hash_size() - 1)`. -/
def mainIdx (t : Table V) (k : Key) : Nat := hashK k &&& (t.hashSize - 1)

/-- Read a hash-segment slot (out-of-range reads, which the C++ code would
fault on, return the empty node). -/
def getNode (t : Table V) (j : Nat) : Node V := t.hseg.getD j default

/-- Replace a hash-segment slot. -/
def setNode (t : Table V) (j : Nat) (nd : Node V) : Table V :=
  { t with hseg := t.hseg.set j nd }

/-- The first loop of `get_free_pos`: pop non-empty entries off the
vacancy list (nulling their `vacancy_next`) until an empty one is found or
the list is exhausted.  Fuel bounds the walk; exhaustion (possible only on
cyclic junk states) behaves like an exhausted list. -/
def pruneStep (t : Table V) (j : Nat) : Table V :=
  { t with hseg := t.hseg.set j { getNode t j with vnext := none },
           vacancy := (getNode t j).vnext }

def pruneVac (t : Table V) : Nat → Option Nat × Table V
  | 0 => (none, t)
  | fuel+1 =>
    match t.vacancy with
    | none => (none, t)
    | some j =>
      if (getNode t j).value.isNone then (some j, t)
      else pruneVac (pruneStep t j) fuel

/-- The second loop of `get_free_pos`: scan backward from the cursor for a
slot with a null value; fail at slot 0. -/
def scanFree (hs : List (Node V)) : Nat → Option Nat
  | 0 => if (hs.getD 0 default).value.isNone then some 0 else none
  | lf+1 => if (hs.getD (lf+1) default).value.isNone then some (lf+1) else scanFree hs lf

/-- `Table::get_free_pos`: vacancy list first, then the backward scan; the
scan's cursor movement persists in the table. -/
def getFreePos (t : Table V) : Option Nat × Table V :=
  match pruneVac t (t.hseg.length + 1) with
  | (some j, t1) => (some j, t1)
  | (none, t1) =>
    match scanFree t1.hseg t1.lastFree with
    | some f => (some f, { t1 with lastFree := f })
    | none => (none, { t1 with lastFree := 0 })

/-- The chain walk of `Table::query`: follow `next` while the slot is
non-empty and its key differs; return the first matching value. -/
def queryGo (t : Table V) (k : Key) : Nat → Option Nat → Option V
  | 0, _ => none
  | _+1, none => none
  | fuel+1, some j =>
    match (getNode t j).value with
    | none => none
    | some v => if keyEqO (getNode t j).key k then some v else queryGo t k fuel (getNode t j).next

/-- `Table::query`. -/
def queryK (t : Table V) (k : Key) : Option V :=
  if inArrRange k t.arraySize then t.arr.getD (arrIdx k) none
  else queryGo t k (t.hseg.length + 1) (some (mainIdx t k))

/-- `Table::free`: reset the node and push it on the vacancy list. -/
def freeNode (t : Table V) (j : Nat) : Table V :=
  { t with hseg := t.hseg.set j { key := none, value := none, next := none, vnext := t.vacancy },
           vacancy := some j }

/-- The chain walk of `Table::erase`, tracking the predecessor; stops at an
empty slot, a match, or a null pointer (`(stop, last)` mirror `mp, last`). -/
def eraseGo (t : Table V) (k : Key) : Nat → Option Nat → Option Nat → Option Nat × Option Nat
  | 0, _, l => (none, l)
  | _+1, none, l => (none, l)
  | fuel+1, some j, l =>
    if (getNode t j).value.isNone then (some j, l)
    else if keyEqO (getNode t j).key k then (some j, l)
    else eraseGo t k fuel (getNode t j).next (some j)

/-- `Table::erase`. -/
def eraseK (t : Table V) (k : Key) : Table V :=
  if inArrRange k t.arraySize then { t with arr := t.arr.set (arrIdx k) none }
  else
    match eraseGo t k (t.hseg.length + 1) (some (mainIdx t k)) none with
    | (none, _) => t
    | (some j, last) =>
      match (getNode t j).next, last with
      | none, none => freeNode t j
      | some j2, none => freeNode (setNode t j (getNode t j2)) j2
      | _, some l => freeNode (setNode t l { getNode t l with next := (getNode t j).next }) j

/-- The predecessor walk of the displaced-occupant branch of insert:
`first = main_pos(mp->key); while (first != mp && first) last = first,
first = first->next;`. -/
def findPred (t : Table V) (mp : Nat) : Nat → Option Nat → Option Nat → Option Nat
  | 0, _, l => l
  | _+1, none, l => l
  | fuel+1, some j, l =>
    if j = mp then l
    else findPred t mp fuel (getNode t j).next (some j)

/-- The main position of the occupant of slot `m`: `main_pos(mp->key)`.
A missing key (junk state; the C++ code would dereference null) defaults
to `m` itself. -/
def occMain (t1 : Table V) (m : Nat) : Nat :=
  match (getNode t1 m).key with
  | some okey => mainIdx t1 okey
  | none => m

/-- Assignment to a node's chain link (`node->next = ...`). -/
def setNext (t : Table V) (j : Nat) (nx : Option Nat) : Table V :=
  setNode t j { getNode t j with next := nx }

/-- The chain-head branch of insert, in the C++ statement order:
`*free = Node(key, value); free->next = mp->next; mp->next = free;`. -/
def insertSplice (t1 : Table V) (k : Key) (v : V) (m f : Nat) : Table V :=
  let s1 := setNode t1 f ⟨some k, some v, none, none⟩
  let s2 := setNext s1 f (getNode s1 m).next
  setNext s2 m (some f)

/-- The displaced-occupant branch of insert, in the C++ statement order:
`*free = Node(last->key, last->value); free->next = mp->next;
last->next = free; *mp = Node(key, value);`. -/
def insertRelocate (t1 : Table V) (k : Key) (v : V) (m f lp : Nat) : Table V :=
  let s1 := setNode t1 f ⟨(getNode t1 lp).key, (getNode t1 lp).value, none, none⟩
  let s2 := setNext s1 f (getNode s1 m).next
  let s3 := setNext s2 lp (some f)
  setNode s3 m ⟨some k, some v, none, none⟩

/-- `Table::insert` without the resize-and-retry step: returns `none`
exactly when a free slot is needed but `get_free_pos` finds none (the
C++ code then calls `recompute_size` and retries). -/
def insertNR (t : Table V) (k : Key) (v : V) : Option (Table V) :=
  if inArrRange k t.arraySize then
    some { t with arr := t.arr.set (arrIdx k) (some v) }
  else
    let m := mainIdx t k
    if (getNode t m).value.isNone || keyEqO (getNode t m).key k then
      some (setNode t m ⟨some k, some v, none, none⟩)
    else
      match getFreePos t with
      | (none, _) => none
      | (some f, t1) =>
        if occMain t1 m = m then
          some (insertSplice t1 k v m f)
        else
          match findPred t1 m (t1.hseg.length + 1) (some (occMain t1 m)) none with
          | none => some t1   -- assert(last != nullptr) fails; unreachable
          | some lp => some (insertRelocate t1 k v m f lp)

/-- `new_table.insert(...)` during a resize rebuild.  The C++ call is the
full recursive insert, but a nested resize can never trigger there (the
fresh segments are sized to leave free slots, see `recomputeSize_room`);
the impossible failure case is modelled as dropping the entry. -/
def insertB (t : Table V) (k : Key) (v : V) : Table V := (insertNR t k v).getD t

/-- `Table::resize(new_array_size_log2, new_hash_size_log2)`: build a fresh
table, move the overlapping array prefix, reinsert array entries beyond the
new bound, then move every live hash-segment entry — directly into the new
array when `key->type() == INT && key->item() < (1 << new_array_size_log2)`
(a **signed** comparison in the C++ code, so negative integer keys pass it
and are written out of the array bounds; such writes are modelled as losing
the entry), otherwise through the insertion path of the fresh table. -/
def resize (t : Table V) (newALog newHLog : Nat) : Table V :=
  let boundary := min t.arraySize (2 ^ newALog)
  let f0 := mkTable V newALog newHLog
  let f1 := { f0 with arr := ((List.range boundary).foldl
                (fun a i => a.set i (t.arr.getD i none)) f0.arr) }
  let f2 := (List.range' boundary (t.arraySize - boundary)).foldl
    (fun ft i =>
      match t.arr.getD i none with
      | some v => insertB ft (Key.KInt i) v
      | none => ft) f1
  (List.range t.hashSize).foldl
    (fun ft j =>
      match (getNode t j).value with
      | none => ft
      | some v =>
        match (getNode t j).key with
        | none => ft   -- non-empty node without a key: the C++ code would fault
        | some (Key.KInt x) =>
          if x < ((2:Int) ^ newALog) then
            if 0 ≤ x then { ft with arr := ft.arr.set x.toNat (some v) }
            else ft    -- array1[negative]: out-of-bounds write, entry lost
          else insertB ft (Key.KInt x) v
        | some kk => insertB ft kk v) f2

/-- The values `push_into_counter` receives (those `≥ 1`): live array
indices from `1` upward, then the items of live `INT`-keyed hash entries. -/
def counterItems (t : Table V) : List Nat :=
  ((List.range' 1 (t.arraySize - 1)).filter (fun i => (t.arr.getD i none).isSome))
  ++ t.hseg.filterMap (fun nd =>
       match nd.value with
       | none => none
       | some _ =>
         match nd.key with
         | some (Key.KInt x) => if 1 ≤ x then some x.toNat else none
         | _ => none)

/-- `Table::bit`: index of the highest set bit, i.e. `Nat.log2` (the C++
`__builtin_clzll` version is undefined at 0; it is only applied to positive
arguments). -/
def bitCgo : Nat → Nat → Nat
  | 0, _ => 0
  | fuel+1, n => if 2 ≤ n then bitCgo fuel (n / 2) + 1 else 0

def bitC (x : Nat) : Nat := bitCgo x x

/-- The final value of `counter[b]` after both counting loops of
`recompute_size`. -/
def counterAt (t : Table V) (b : Nat) : Nat :=
  (counterItems t).countP (fun x => bitC x = b)

/-- The number of live array slots at indices `≥ 1`. -/
def liveArrTail (t : Table V) : Nat :=
  (List.range' 1 (t.arraySize - 1)).countP (fun i => (t.arr.getD i none).isSome)

/-- The number of non-empty hash-segment slots. -/
def occH (t : Table V) : Nat := t.hseg.countP (fun nd => nd.value.isSome)

/-- `hash_part` after both counting loops: it starts at 2 (slot 0 is
assumed occupied, plus the entry whose insertion triggered the resize) and
counts every live entry outside array slot 0. -/
def hashPartInit (t : Table V) : Nat := 2 + liveArrTail t + occH t

/-- The size-selection loop of `recompute_size`: fold over `i < 31`
carrying `(total, new_array_size_log2, array_part)`; returns the chosen
`(new_array_size_log2, array_part)`. -/
def chooseArr (t : Table V) : Nat × Nat :=
  ((List.range 31).foldl
    (fun (st : Nat × Nat × Nat) i =>
      let total := st.1 + counterAt t i
      if 2 ^ i < total then (total, i + 1, total) else (total, st.2.1, st.2.2))
    (1, 0, 0)).2

/-- `Table::recompute_size`: choose the new sizes and resize.  (The failed
`get_free_pos` that precedes this call only alters free-list bookkeeping,
which neither the counting loops nor `resize` ever read, so the counts are
taken from the pre-attempt state.) -/
def recomputeSize (t : Table V) : Table V :=
  let a := chooseArr t
  resize t a.1 (max 1 (bitC (hashPartInit t - a.2) + 1))

/-- `Table::insert`: try, and on a failed free-slot search recompute the
sizes and retry once.  (The C++ code retries by recursion; a second failure
is impossible — `recomputeSize_room` — and is modelled as dropping the
entry.) -/
def insertK (t : Table V) (k : Key) (v : V) : Table V :=
  match insertNR t k v with
  | some t2 => t2
  | none =>
    let t2 := recomputeSize t
    (insertNR t2 k v).getD t2

/-- The number of live entries of the whole table (array plus hash
segment). -/
def countLive (t : Table V) : Nat :=
  t.arr.countP (fun x => x.isSome) + occH t

/-! ### Generic list lemmas -/

theorem getD_set_self {α : Type u} (l : List α) (i : Nat) (a d : α) (h : i < l.length) :
    (l.set i a).getD i d = a := by
  simp [List.getD, List.getElem?_set_eq_of_lt a h]

theorem getD_set_ne {α : Type u} (l : List α) {i j : Nat} (a d : α) (h : i ≠ j) :
    (l.set i a).getD j d = l.getD j d := by
  simp [List.getD, List.getElem?_set_ne h]

theorem countP_set_bal {α : Type u} (l : List α) (i : Nat) (a d : α) (p : α → Bool)
    (h : i < l.length) :
    (l.set i a).countP p + (if p (l.getD i d) then 1 else 0)
      = l.countP p + (if p a then 1 else 0) := by
  induction l generalizing i with
  | nil => simp at h
  | cons x xs ih =>
    cases i with
    | zero => simp [List.countP_cons, List.getD]; omega
    | succ n =>
      have hn : n < xs.length := by simpa using h
      have := ih n hn
      simp only [List.set, List.countP_cons, List.getD_cons_succ]
      omega

theorem countP_set_le {α : Type u} (l : List α) (i : Nat) (a : α) (p : α → Bool) :
    (l.set i a).countP p ≤ l.countP p + 1 := by
  rcases Nat.lt_or_ge i l.length with h | h
  · rcases l with _ | ⟨x, xs⟩
    · simp at h
    · have := countP_set_bal (x :: xs) i a x p h
      split at this <;> split at this <;> omega
  · rw [List.set_eq_of_length_le h]
    omega

theorem countP_set_eq_of {α : Type u} (l : List α) (i : Nat) (a d : α) (p : α → Bool)
    (hp : p a = p (l.getD i d)) : (l.set i a).countP p = l.countP p := by
  rcases Nat.lt_or_ge i l.length with h | h
  · have := countP_set_bal l i a d p h
    rw [hp] at this
    omega
  · rw [List.set_eq_of_length_le h]

theorem countP_getD_range {α : Type u} (l : List α) (p : α → Bool) (d : α) :
    (List.range l.length).countP (fun j => p (l.getD j d)) = l.countP p := by
  induction l with
  | nil => simp
  | cons x xs ih =>
    have h1 : ((List.range xs.length).map (· + 1)).countP (fun j => p ((x :: xs).getD j d))
        = (List.range xs.length).countP (fun j => p (xs.getD j d)) := by
      rw [List.countP_map]
      refine List.countP_congr (fun y _ => ?_)
      simp [Function.comp, List.getD_cons_succ]
    calc ((List.range (x :: xs).length).countP (fun j => p ((x :: xs).getD j d)))
        = ((0 :: (List.range xs.length).map (· + 1)).countP
            (fun j => p ((x :: xs).getD j d))) := by
          rw [List.length_cons, List.range_succ_eq_map]
      _ = (x :: xs).countP p := by
          rw [List.countP_cons, h1, ih, List.countP_cons]
          simp [List.getD_cons_zero]

theorem countP_disjoint_le {α : Type u} (l : List α) (p q r : α → Bool)
    (hpq : ∀ x, p x = true → q x = true → False)
    (hpr : ∀ x, p x = true → r x = true) (hqr : ∀ x, q x = true → r x = true) :
    l.countP p + l.countP q ≤ l.countP r := by
  induction l with
  | nil => simp
  | cons x xs ih =>
    simp only [List.countP_cons]
    by_cases hp : p x = true
    · have hr := hpr x hp
      have hq : ¬ q x = true := fun hq => hpq x hp hq
      simp [hp, hq, hr]; omega
    · by_cases hq : q x = true
      · have hr := hqr x hq
        simp [hp, hq, hr]; omega
      · simp [hp, hq]
        have : (if r x = true then 1 else 0) ≥ 0 := Nat.zero_le _
        split <;> omega

theorem countP_or_disjoint {α : Type u} (l : List α) (p q : α → Bool)
    (hpq : ∀ x, p x = true → q x = true → False) :
    l.countP (fun x => p x || q x) = l.countP p + l.countP q := by
  induction l with
  | nil => simp
  | cons x xs ih =>
    simp only [List.countP_cons, ih]
    by_cases hp : p x = true
    · have hq : ¬ q x = true := fun hq => hpq x hp hq
      simp [hp, hq]; omega
    · by_cases hq : q x = true
      · simp [hp, hq]
        try omega
      · simp [hp, hq]
        try omega

theorem countP_filterMap_decomp {α β : Type u} (l : List α) (f : α → Option β) (p : β → Bool) :
    (l.filterMap f).countP p = l.countP (fun x => ((f x).map p).getD false) := by
  induction l with
  | nil => rfl
  | cons a t ih =>
    simp only [List.filterMap_cons]
    cases hfa : f a <;> simp [List.countP_cons, ih, hfa]

theorem all_getD_countP {α : Type u} (l : List α) (p : α → Bool) (d : α)
    (h : ∀ i, i < l.length → p (l.getD i d) = true) : l.countP p = l.length := by
  refine List.countP_eq_length.mpr (fun x hx => ?_)
  rcases List.getElem_of_mem hx with ⟨i, hi, rfl⟩
  have := h i hi
  rwa [List.getD_eq_getElem l d hi] at this

theorem exists_getD_not_of_countP_lt {α : Type u} (l : List α) (p : α → Bool) (d : α)
    (h : l.countP p < l.length) : ∃ i, i < l.length ∧ ¬ p (l.getD i d) = true := by
  by_contra hc
  push_neg at hc
  have : l.countP p = l.length := all_getD_countP l p d (fun i hi => by
    have := hc i hi
    simpa using this)
  omega

/-! ### Structural well-formedness and free-slot allocation -/

/-- Structural well-formedness: segment lengths match their size exponents,
the scan cursor is in range, and the free-list links point into the hash
segment.  These hold for every table the code can construct. -/
def wfLite (t : Table V) : Prop :=
  t.arr.length = 2 ^ t.arrLog2 ∧ t.hseg.length = 2 ^ t.hashLog2 ∧ 1 ≤ t.hashLog2 ∧
  t.lastFree < t.hseg.length ∧
  (∀ j, t.vacancy = some j → j < t.hseg.length) ∧
  (∀ j i, (getNode t j).vnext = some i → i < t.hseg.length)

/-- Well-formedness transfers along out-of-range reads: slots outside the
segment read as the default node, whose `vnext` is `none`. -/
theorem vnext_oob (t : Table V) {j : Nat} (h : t.hseg.length ≤ j) :
    (getNode t j).vnext = none := by
  rw [getNode, List.getD_eq_default _ _ h]
  rfl

/-- Everything `get_free_pos` leaves untouched: sizes, the array, and the
key/value/next fields of every hash slot (only `vacancy_next` links, the
vacancy head and the scan cursor can move). -/
def coreEq (t t' : Table V) : Prop :=
  t'.arrLog2 = t.arrLog2 ∧ t'.hashLog2 = t.hashLog2 ∧ t'.arr = t.arr ∧
  t'.hseg.length = t.hseg.length ∧
  ∀ j, (getNode t' j).key = (getNode t j).key ∧
       (getNode t' j).value = (getNode t j).value ∧
       (getNode t' j).next = (getNode t j).next

theorem coreEq_refl (t : Table V) : coreEq t t :=
  ⟨rfl, rfl, rfl, rfl, fun _ => ⟨rfl, rfl, rfl⟩⟩

theorem coreEq_trans {t t' t'' : Table V} (h1 : coreEq t t') (h2 : coreEq t' t'') :
    coreEq t t'' := by
  obtain ⟨a1, b1, c1, d1, e1⟩ := h1
  obtain ⟨a2, b2, c2, d2, e2⟩ := h2
  exact ⟨a2.trans a1, b2.trans b1, c2.trans c1, d2.trans d1,
    fun j => ⟨(e2 j).1.trans (e1 j).1, (e2 j).2.1.trans (e1 j).2.1,
      (e2 j).2.2.trans (e1 j).2.2⟩⟩

theorem hashSize_pos (t : Table V) : 0 < t.hashSize := Nat.pos_pow_of_pos _ (by omega)

theorem mainIdx_lt (t : Table V) (k : Key) : mainIdx t k < t.hashSize := by
  have h1 : mainIdx t k ≤ t.hashSize - 1 := Nat.and_le_right
  have := hashSize_pos t
  omega

theorem getNode_setNode_self (t : Table V) (j : Nat) (nd : Node V) (h : j < t.hseg.length) :
    getNode (setNode t j nd) j = nd := by
  show (t.hseg.set j nd).getD j default = nd
  exact getD_set_self _ _ _ _ h

theorem getNode_setNode_ne (t : Table V) {i j : Nat} (nd : Node V) (h : i ≠ j) :
    getNode (setNode t i nd) j = getNode t j := by
  show (t.hseg.set i nd).getD j default = t.hseg.getD j default
  exact getD_set_ne _ _ _ h

theorem setNode_hseg_length (t : Table V) (j : Nat) (nd : Node V) :
    (setNode t j nd).hseg.length = t.hseg.length := by
  simp [setNode]

theorem getNode_pruneStep_self (t : Table V) (j : Nat) (h : j < t.hseg.length) :
    getNode (pruneStep t j) j = { getNode t j with vnext := none } := by
  show (t.hseg.set j { getNode t j with vnext := none }).getD j default = _
  exact getD_set_self _ _ _ _ h

theorem getNode_pruneStep_ne (t : Table V) {j a : Nat} (h : j ≠ a) :
    getNode (pruneStep t j) a = getNode t a := by
  show (t.hseg.set j { getNode t j with vnext := none }).getD a default = t.hseg.getD a default
  exact getD_set_ne _ _ _ h

/-- One pruning step of `get_free_pos` only touches `vacancy_next` links
and the vacancy head. -/
theorem pruneStep_core (t : Table V) (j : Nat) : coreEq t (pruneStep t j) := by
  refine ⟨rfl, rfl, rfl, by simp [pruneStep], fun a => ?_⟩
  by_cases ha : j = a
  · subst ha
    rcases Nat.lt_or_ge j t.hseg.length with hj | hj
    · rw [getNode_pruneStep_self t j hj]
      exact ⟨rfl, rfl, rfl⟩
    · have h1 : getNode (pruneStep t j) j = default := by
        rw [getNode, List.getD_eq_default]
        simp [pruneStep]
        omega
      have h2 : getNode t j = default := by
        rw [getNode, List.getD_eq_default _ _ hj]
      rw [h1, h2]
      exact ⟨rfl, rfl, rfl⟩
  · rw [getNode_pruneStep_ne t ha]
    exact ⟨rfl, rfl, rfl⟩

/-- The prune loop only touches `vacancy_next` links, the vacancy head and
nothing else; in particular the scan cursor is untouched. -/
theorem pruneVac_core : ∀ (fuel : Nat) (t : Table V),
    coreEq t (pruneVac t fuel).2 ∧ (pruneVac t fuel).2.lastFree = t.lastFree := by
  intro fuel
  induction fuel with
  | zero => intro t; exact ⟨coreEq_refl t, rfl⟩
  | succ n ih =>
    intro t
    rw [pruneVac]
    cases hv : t.vacancy with
    | none => exact ⟨coreEq_refl t, rfl⟩
    | some j =>
      by_cases he : (getNode t j).value.isNone
      · simp only [he, if_true]
        exact ⟨coreEq_refl t, trivial⟩
      · simp only [he, if_false]
        have hlf : (pruneStep t j).lastFree = t.lastFree := rfl
        exact ⟨coreEq_trans (pruneStep_core t j) (ih (pruneStep t j)).1,
          (ih (pruneStep t j)).2.trans hlf⟩

/-- A successful prune returns an empty slot, in range whenever the free
list links are in range. -/
theorem pruneVac_some_facts : ∀ (fuel : Nat) (t : Table V) (j : Nat) (t1 : Table V),
    pruneVac t fuel = (some j, t1) →
    (getNode t1 j).value.isNone ∧
    ((∀ i, t.vacancy = some i → i < t.hseg.length) →
     (∀ a i, (getNode t a).vnext = some i → i < t.hseg.length) →
     j < t.hseg.length) := by
  intro fuel
  induction fuel with
  | zero => intro t j t1 h; simp [pruneVac] at h
  | succ n ih =>
    intro t j t1 h
    rw [pruneVac] at h
    cases hv : t.vacancy with
    | none => rw [hv] at h; simp at h
    | some j0 =>
      rw [hv] at h
      by_cases he : (getNode t j0).value.isNone
      · simp only [he, if_true] at h
        have hj : j0 = j := by
          have := congrArg Prod.fst h
          simpa using this
        have ht1 : t = t1 := congrArg Prod.snd h
        subst hj
        subst ht1
        exact ⟨he, fun hhead _ => hhead j0 rfl⟩
      · simp only [he, if_false] at h
        have hrec := ih (pruneStep t j0) j t1 h
        refine ⟨hrec.1, fun hhead hlinks => ?_⟩
        have hlen : (pruneStep t j0).hseg.length = t.hseg.length := by simp [pruneStep]
        have hhead' : ∀ i, (pruneStep t j0).vacancy = some i → i < (pruneStep t j0).hseg.length := by
          intro i hi
          rw [hlen]
          exact hlinks j0 i hi
        have hlinks' : ∀ a i, (getNode (pruneStep t j0) a).vnext = some i →
            i < (pruneStep t j0).hseg.length := by
          intro a i hi
          rw [hlen]
          by_cases ha : j0 = a
          · subst ha
            rcases Nat.lt_or_ge j0 t.hseg.length with hj | hj
            · rw [getNode_pruneStep_self t j0 hj] at hi
              simp at hi
            · rw [vnext_oob _ (by rw [hlen]; exact hj)] at hi
              simp at hi
          · rw [getNode_pruneStep_ne t ha] at hi
            exact hlinks a i hi
        rw [← hlen]
        exact hrec.2 hhead' hlinks'

/-- If the vacancy list is empty, pruning does nothing. -/
theorem pruneVac_vacNone (t : Table V) (h : t.vacancy = none) :
    ∀ fuel, pruneVac t fuel = (none, t) := by
  intro fuel
  cases fuel with
  | zero => rfl
  | succ n =>
    rw [pruneVac]
    rw [h]

/-- Extract `isSome` from a failed `isNone` test. -/
theorem isSome_of_not_isNone {o : Option A} (h : ¬ o.isNone = true) : o.isSome = true := by
  cases o with
  | none => exact absurd rfl h
  | some a => rfl

/-- A successful scan returns an empty slot at or below the cursor, and
every slot it skipped on the way down is occupied. -/
theorem scanFree_some_facts (hs : List (Node V)) :
    ∀ (lf f : Nat), scanFree hs lf = some f →
    f ≤ lf ∧ (hs.getD f default).value.isNone ∧
    (∀ j, f < j → j ≤ lf → (hs.getD j default).value.isSome) := by
  intro lf
  induction lf with
  | zero =>
    intro f h
    rw [scanFree] at h
    by_cases he : (hs.getD 0 default).value.isNone = true
    · rw [if_pos he] at h
      cases h
      exact ⟨Nat.le_refl _, he, fun j h1 h2 => by omega⟩
    · rw [if_neg he] at h
      cases h
  | succ n ih =>
    intro f h
    rw [scanFree] at h
    by_cases he : (hs.getD (n+1) default).value.isNone = true
    · rw [if_pos he] at h
      cases h
      exact ⟨Nat.le_refl _, he, fun j h1 h2 => by omega⟩
    · rw [if_neg he] at h
      obtain ⟨h1, h2, h3⟩ := ih f h
      refine ⟨by omega, h2, fun j hj1 hj2 => ?_⟩
      rcases Nat.lt_or_ge j (n+1) with hj | hj
      · exact h3 j hj1 (by omega)
      · have hj' : j = n + 1 := by omega
        subst hj'
        exact isSome_of_not_isNone he

/-- A failed scan means every slot at or below the cursor is occupied. -/
theorem scanFree_none_facts (hs : List (Node V)) :
    ∀ (lf : Nat), scanFree hs lf = none →
    ∀ j, j ≤ lf → (hs.getD j default).value.isSome := by
  intro lf
  induction lf with
  | zero =>
    intro h j hj
    rw [scanFree] at h
    by_cases he : (hs.getD 0 default).value.isNone = true
    · rw [if_pos he] at h
      cases h
    · have hj' : j = 0 := by omega
      subst hj'
      exact isSome_of_not_isNone he
  | succ n ih =>
    intro h j hj
    rw [scanFree] at h
    by_cases he : (hs.getD (n+1) default).value.isNone = true
    · rw [if_pos he] at h
      cases h
    · rw [if_neg he] at h
      rcases Nat.lt_or_ge j (n+1) with hj' | hj'
      · exact ih h j (by omega)
      · have hj'' : j = n + 1 := by omega
        subst hj''
        exact isSome_of_not_isNone he

/-- What a successful `get_free_pos` guarantees on a well-formed table:
the sizes, array and key/value/next data are untouched, and the returned
slot is empty and in range. -/
theorem getFreePos_some_facts (t : Table V) (f : Nat) (t1 : Table V)
    (hwf : wfLite t) (h : getFreePos t = (some f, t1)) :
    coreEq t t1 ∧ (getNode t1 f).value.isNone ∧ f < t.hseg.length := by
  obtain ⟨_, _, _, hlf, hhead, hlinks⟩ := hwf
  rw [getFreePos] at h
  rcases hp : pruneVac t (t.hseg.length + 1) with ⟨r, t'⟩
  rw [hp] at h
  have hcore' : coreEq t t' := by
    have := (pruneVac_core (t.hseg.length + 1) t).1
    rwa [hp] at this
  have hlf' : t'.lastFree = t.lastFree := by
    have := (pruneVac_core (t.hseg.length + 1) t).2
    rwa [hp] at this
  cases r with
  | some j =>
    simp only at h
    have hj : f = j := by
      have := congrArg Prod.fst h
      simpa using this.symm
    have ht1 : t1 = t' := (congrArg Prod.snd h).symm
    subst hj
    subst ht1
    obtain ⟨hempty, hrange⟩ := pruneVac_some_facts (t.hseg.length + 1) t f t1 hp
    exact ⟨hcore', hempty, hrange hhead hlinks⟩
  | none =>
    simp only at h
    cases hs : scanFree t'.hseg t'.lastFree with
    | some f' =>
      rw [hs] at h
      have hf : f = f' := by
        have := congrArg Prod.fst h
        simpa using this.symm
      have ht1 : t1 = { t' with lastFree := f' } := (congrArg Prod.snd h).symm
      subst hf
      obtain ⟨h1, h2, _⟩ := scanFree_some_facts t'.hseg t'.lastFree f hs
      have hcore1 : coreEq t t1 := by
        rw [ht1]
        exact coreEq_trans hcore' ⟨rfl, rfl, rfl, rfl, fun j => ⟨rfl, rfl, rfl⟩⟩
      refine ⟨hcore1, ?_, ?_⟩
      · have hg : getNode t1 f = getNode t' f := by
          rw [ht1]
          rfl
        rw [hg]
        exact h2
      · have : f ≤ t.lastFree := by rw [← hlf']; exact h1
        omega
    | none =>
      rw [hs] at h
      simp at h

/-! ### Insert followed by query -/

theorem arrIdx_lt_of_inArr {k : Key} {asz : Nat} (h : inArrRange k asz = true) :
    arrIdx k < asz := by
  cases k with
  | KInt i => simpa [inArrRange, arrIdx] using h
  | KNum n => simp [inArrRange] at h
  | KStr s => simp [inArrRange] at h
  | KPtr p => simp [inArrRange] at h
  | KH p c => simp [inArrRange] at h

/-- The predecessor walk returns a node once it has stepped at least once;
in particular it cannot return null when it starts away from `mp`. -/
theorem findPred_keeps_some (t : Table V) (mp : Nat) :
    ∀ (fuel : Nat) (ptr : Option Nat) (x : Nat),
    (findPred t mp fuel ptr (some x)).isSome = true := by
  intro fuel
  induction fuel with
  | zero => intro ptr x; rfl
  | succ n ih =>
    intro ptr x
    cases ptr with
    | none => rfl
    | some j =>
      rw [findPred]
      by_cases hj : j = mp
      · rw [if_pos hj]
        rfl
      · rw [if_neg hj]
        exact ih _ j

theorem findPred_ne_start_isSome (t : Table V) {mp j0 : Nat} (h : j0 ≠ mp) (fuel : Nat) :
    (findPred t mp (fuel + 1) (some j0) none).isSome = true := by
  rw [findPred, if_neg h]
  exact findPred_keeps_some t mp fuel _ j0

/-- Query succeeds immediately when the main-position slot holds the looked
up key (and key equality is reflexive at that key). -/
theorem queryK_hit_main (t2 : Table V) (k : Key) (v : V) (m : Nat) (nx vn : Option Nat)
    (hguard : inArrRange k t2.arraySize = false) (hm : mainIdx t2 k = m)
    (hnode : getNode t2 m = ⟨some k, some v, nx, vn⟩) (hk : keyEq k k = true) :
    queryK t2 k = some v := by
  rw [queryK, if_neg (by simp [hguard]), hm]
  rw [queryGo, hnode]
  simp [keyEqO, hk]

/-- Query succeeds in two steps when the main slot is occupied by a
different key whose chain link leads to the looked-up key. -/
theorem queryK_hit_second (t2 : Table V) (k : Key) (v : V) (m f : Nat) (w : V)
    (hguard : inArrRange k t2.arraySize = false) (hm : mainIdx t2 k = m)
    (hmval : (getNode t2 m).value = some w)
    (hmkey : keyEqO (getNode t2 m).key k = false)
    (hnext : (getNode t2 m).next = some f)
    (hfval : (getNode t2 f).value = some v)
    (hfkey : keyEqO (getNode t2 f).key k = true)
    (hlen : 1 ≤ t2.hseg.length) :
    queryK t2 k = some v := by
  rw [queryK, if_neg (by simp [hguard]), hm]
  rw [queryGo, hmval]
  simp only [hmkey, if_false, hnext]
  obtain ⟨n, hn⟩ : ∃ n, t2.hseg.length = n + 1 := ⟨t2.hseg.length - 1, by omega⟩
  rw [hn]
  rw [queryGo, hfval]
  simp [hfkey]

theorem getNode_setNext_self (t : Table V) (j : Nat) (nx : Option Nat)
    (h : j < t.hseg.length) :
    getNode (setNext t j nx) j = { getNode t j with next := nx } :=
  getNode_setNode_self t j _ h

theorem getNode_setNext_ne (t : Table V) {i j : Nat} (nx : Option Nat) (h : i ≠ j) :
    getNode (setNext t i nx) j = getNode t j :=
  getNode_setNode_ne t _ h

theorem setNext_hseg_length (t : Table V) (j : Nat) (nx : Option Nat) :
    (setNext t j nx).hseg.length = t.hseg.length :=
  setNode_hseg_length t j _

theorem insertSplice_hseg_length (t1 : Table V) (k : Key) (v : V) (m f : Nat) :
    (insertSplice t1 k v m f).hseg.length = t1.hseg.length := by
  simp [insertSplice, setNext, setNode]

theorem insertRelocate_hseg_length (t1 : Table V) (k : Key) (v : V) (m f lp : Nat) :
    (insertRelocate t1 k v m f lp).hseg.length = t1.hseg.length := by
  simp [insertRelocate, setNext, setNode]

theorem insertSplice_node_m (t1 : Table V) (k : Key) (v : V) (m f : Nat)
    (hne : f ≠ m) (hm : m < t1.hseg.length) :
    getNode (insertSplice t1 k v m f) m = { getNode t1 m with next := some f } := by
  rw [insertSplice]
  rw [getNode_setNext_self _ m _ (by simp [setNext, setNode]; omega)]
  rw [getNode_setNext_ne _ _ hne, getNode_setNode_ne _ _ hne]

theorem insertSplice_node_f (t1 : Table V) (k : Key) (v : V) (m f : Nat)
    (hne : f ≠ m) (hf : f < t1.hseg.length) :
    getNode (insertSplice t1 k v m f) f = ⟨some k, some v, (getNode t1 m).next, none⟩ := by
  rw [insertSplice]
  rw [getNode_setNext_ne _ _ (Ne.symm hne)]
  rw [getNode_setNext_self _ f _ (by simp [setNode]; omega)]
  rw [getNode_setNode_self _ f _ hf]
  rw [getNode_setNode_ne _ _ hne]

theorem insertRelocate_node_m (t1 : Table V) (k : Key) (v : V) (m f lp : Nat)
    (hm : m < t1.hseg.length) :
    getNode (insertRelocate t1 k v m f lp) m = ⟨some k, some v, none, none⟩ := by
  rw [insertRelocate]
  rw [getNode_setNode_self _ m _ (by simp [setNext, setNode]; omega)]

/-- After a successful `insert` attempt (no resize triggered), querying the
inserted key — provided its equality is reflexive, i.e. it is not a NaN
number key — returns the inserted value. -/
theorem insertNR_query (t : Table V) (k : Key) (v : V) (t2 : Table V)
    (hwf : wfLite t) (hk : keyEq k k = true) (h : insertNR t k v = some t2) :
    queryK t2 k = some v := by
  obtain ⟨hal, hhl, hlog, hlf, hhead, hlinks⟩ := hwf
  rw [insertNR] at h
  by_cases hArr : inArrRange k t.arraySize = true
  · rw [if_pos hArr] at h
    have ht2 : t2 = { t with arr := t.arr.set (arrIdx k) (some v) } := by
      cases h
      rfl
    subst ht2
    rw [queryK, if_pos (by exact hArr)]
    show (t.arr.set (arrIdx k) (some v)).getD (arrIdx k) none = some v
    refine getD_set_self _ _ _ _ ?_
    rw [hal]
    exact arrIdx_lt_of_inArr hArr
  · rw [if_neg hArr] at h
    simp only at h
    have hArrF : inArrRange k t.arraySize = false := by
      cases hb : inArrRange k t.arraySize
      · rfl
      · exact absurd hb hArr
    have hmlt : mainIdx t k < t.hseg.length := by
      rw [hhl]
      exact mainIdx_lt t k
    by_cases hMain : ((getNode t (mainIdx t k)).value.isNone
        || keyEqO (getNode t (mainIdx t k)).key k) = true
    · rw [if_pos hMain] at h
      have ht2 : t2 = setNode t (mainIdx t k) ⟨some k, some v, none, none⟩ := by
        cases h
        rfl
      subst ht2
      refine queryK_hit_main _ k v (mainIdx t k) none none ?_ rfl ?_ hk
      · exact hArrF
      · exact getNode_setNode_self t (mainIdx t k) _ hmlt
    · rw [if_neg hMain] at h
      rcases hfp : getFreePos t with ⟨r, t1⟩
      rw [hfp] at h
      cases r with
      | none => cases h
      | some f =>
        simp only at h
        obtain ⟨hcore, hfempty, hflt⟩ := getFreePos_some_facts t f t1
          ⟨hal, hhl, hlog, hlf, hhead, hlinks⟩ hfp
        obtain ⟨hcA, hcH, hcArr, hcLen, hcNode⟩ := hcore
        have hmain2 : ∀ t' : Table V, t'.hashLog2 = t.hashLog2 →
            mainIdx t' k = mainIdx t k := by
          intro t' hlog'
          rw [mainIdx, mainIdx, Table.hashSize, Table.hashSize, hlog']
        have hMainF : (getNode t (mainIdx t k)).value.isNone = false ∧
            keyEqO (getNode t (mainIdx t k)).key k = false := by
          constructor
          · cases hb : (getNode t (mainIdx t k)).value.isNone
            · rfl
            · exact absurd (by simp [hb]) hMain
          · cases hb : keyEqO (getNode t (mainIdx t k)).key k
            · rfl
            · exact absurd (by simp [hb]) hMain
        have hval : (getNode t (mainIdx t k)).value.isSome = true := by
          cases hv : (getNode t (mainIdx t k)).value with
          | none => rw [hv] at hMainF; simp at hMainF
          | some w => rfl
        have hfne : f ≠ mainIdx t k := by
          intro heq
          have h1 := (hcNode f).2.1
          rw [heq] at h1
          rw [heq] at hfempty
          rw [h1] at hfempty
          cases hv : (getNode t (mainIdx t k)).value with
          | none => rw [hv] at hval; simp at hval
          | some w => rw [hv] at hfempty; simp at hfempty
        have hmlt1 : mainIdx t k < t1.hseg.length := by rw [hcLen]; exact hmlt
        obtain ⟨w, hw⟩ : ∃ w, (getNode t (mainIdx t k)).value = some w := by
          cases hv : (getNode t (mainIdx t k)).value with
          | none => rw [hv] at hval; simp at hval
          | some w => exact ⟨w, rfl⟩
        have hm1 : mainIdx t1 k = mainIdx t k := hmain2 t1 hcH
        by_cases hOcc : occMain t1 (mainIdx t k) = mainIdx t k
        · rw [if_pos hOcc] at h
          have ht2 : t2 = insertSplice t1 k v (mainIdx t k) f := by
            cases h
            rfl
          subst ht2
          have hn_m := insertSplice_node_m t1 k v (mainIdx t k) f hfne hmlt1
          have hn_f := insertSplice_node_f t1 k v (mainIdx t k) f hfne
            (by rw [hcLen]; exact hflt)
          refine queryK_hit_second _ k v (mainIdx t k) f w ?_ ?_ ?_ ?_ ?_ ?_ ?_ ?_
          · show inArrRange k (2 ^ (insertSplice t1 k v (mainIdx t k) f).arrLog2) = false
            have : (insertSplice t1 k v (mainIdx t k) f).arrLog2 = t.arrLog2 := by
              simp [insertSplice, setNext, setNode, hcA]
            rw [this]
            exact hArrF
          · have : (insertSplice t1 k v (mainIdx t k) f).hashLog2 = t.hashLog2 := by
              simp [insertSplice, setNext, setNode, hcH]
            rw [mainIdx, Table.hashSize, this]
            rfl
          · rw [hn_m, (hcNode (mainIdx t k)).2.1]
            exact hw
          · rw [hn_m, (hcNode (mainIdx t k)).1]
            exact hMainF.2
          · rw [hn_m]
          · rw [hn_f]
          · rw [hn_f]
            exact hk
          · rw [insertSplice_hseg_length, hcLen]
            omega
        · rw [if_neg hOcc] at h
          cases hl : findPred t1 (mainIdx t k) (t1.hseg.length + 1)
              (some (occMain t1 (mainIdx t k))) none with
          | none =>
            exfalso
            have := findPred_ne_start_isSome t1 hOcc t1.hseg.length
            rw [hl] at this
            cases this
          | some lp =>
            rw [hl] at h
            have ht2 : t2 = insertRelocate t1 k v (mainIdx t k) f lp := by
              cases h
              rfl
            subst ht2
            refine queryK_hit_main _ k v (mainIdx t k) none none ?_ ?_ ?_ hk
            · show inArrRange k (2 ^ (insertRelocate t1 k v (mainIdx t k) f lp).arrLog2) = false
              have : (insertRelocate t1 k v (mainIdx t k) f lp).arrLog2 = t.arrLog2 := by
                simp [insertRelocate, setNext, setNode, hcA]
              rw [this]
              exact hArrF
            · have : (insertRelocate t1 k v (mainIdx t k) f lp).hashLog2 = t.hashLog2 := by
                simp [insertRelocate, setNext, setNode, hcH]
              rw [mainIdx, Table.hashSize, this]
              rfl
            · exact insertRelocate_node_m t1 k v (mainIdx t k) f lp hmlt1

/-! ### The invariant of freshly built tables -/

/-- All `vacancy_next` links are null (true of every table the resize
rebuild produces: nothing is ever freed while building). -/
def allVnextNone (t : Table V) : Prop := ∀ j, (getNode t j).vnext = none

/-- The invariant maintained while a fresh table is being populated by
inserts only: correct segment lengths, empty vacancy list, in-range scan
cursor, every slot above the cursor occupied, and no vacancy links. -/
def BuildInv (t : Table V) : Prop :=
  t.arr.length = 2 ^ t.arrLog2 ∧ t.hseg.length = 2 ^ t.hashLog2 ∧
  t.vacancy = none ∧ t.lastFree < t.hseg.length ∧
  (∀ j, t.lastFree < j → j < t.hseg.length → (getNode t j).value.isSome) ∧
  allVnextNone t

theorem BuildInv_wfLite (t : Table V) (h : BuildInv t) (hlog : 1 ≤ t.hashLog2) :
    wfLite t := by
  obtain ⟨h1, h2, h3, h4, _, h6⟩ := h
  refine ⟨h1, h2, hlog, h4, ?_, ?_⟩
  · intro j hj
    rw [h3] at hj
    cases hj
  · intro j i hi
    rw [h6 j] at hi
    cases hi

theorem getD_replicate_default (n j : Nat) :
    ((List.replicate n (default : Node V)).getD j default) = default := by
  rcases Nat.lt_or_ge j n with h | h
  · rw [List.getD_eq_getElem _ _ (by simpa using h)]
    simp
  · rw [List.getD_eq_default]
    simpa using h

theorem mkTable_BuildInv (aLog hLog : Nat) :
    BuildInv (mkTable V aLog hLog) ∧ occH (mkTable V aLog hLog) = 0 := by
  have hnode : ∀ j, getNode (mkTable V aLog hLog) j = default := by
    intro j
    exact getD_replicate_default _ _
  have hpos : 0 < 2 ^ hLog := Nat.pos_pow_of_pos _ (by omega)
  constructor
  · refine ⟨by simp [mkTable], by simp [mkTable], rfl, ?_, ?_, ?_⟩
    · show 2 ^ hLog - 1 < (List.replicate (2 ^ hLog) (default : Node V)).length
      rw [List.length_replicate]
      omega
    · intro j h1 h2
      exfalso
      simp only [mkTable, List.length_replicate] at h1 h2
      omega
    · intro j
      rw [hnode j]
      rfl
  · show (List.replicate (2 ^ hLog) (default : Node V)).countP _ = 0
    rw [List.countP_eq_zero]
    intro nd hnd
    rw [List.eq_of_mem_replicate hnd]
    intro hcon
    cases hcon

theorem getNode_setNode_oob (t : Table V) {i : Nat} (nd : Node V)
    (h : t.hseg.length ≤ i) (a : Nat) : getNode (setNode t i nd) a = getNode t a := by
  show (t.hseg.set i nd).getD a default = t.hseg.getD a default
  rw [List.set_eq_of_length_le h]

/-- Overwriting a slot with a node that keeps its value field leaves every
value in the segment unchanged. -/
theorem value_setNode_keep (t : Table V) (i : Nat) (nd : Node V)
    (h : nd.value = (getNode t i).value) (a : Nat) :
    (getNode (setNode t i nd) a).value = (getNode t a).value := by
  by_cases hia : i = a
  · subst hia
    rcases Nat.lt_or_ge i t.hseg.length with hl | hl
    · rw [getNode_setNode_self _ _ _ hl, h]
    · rw [getNode_setNode_oob _ _ hl]
  · rw [getNode_setNode_ne _ _ hia]

theorem occH_setNode_keep (t : Table V) (j : Nat) (nd : Node V)
    (h : nd.value.isSome = (getNode t j).value.isSome) :
    occH (setNode t j nd) = occH t :=
  countP_set_eq_of _ _ _ default _ h

theorem occH_setNode_le (t : Table V) (j : Nat) (nd : Node V) :
    occH (setNode t j nd) ≤ occH t + 1 :=
  countP_set_le _ _ _ _

theorem occH_setNode_some_of_some (t : Table V) (j : Nat) (nd : Node V)
    (hnew : nd.value.isSome = true) (hold : (getNode t j).value.isSome = true) :
    occH (setNode t j nd) = occH t :=
  occH_setNode_keep t j nd (hnew.trans hold.symm)

theorem value_setNext (t : Table V) (j : Nat) (nx : Option Nat) (a : Nat) :
    (getNode (setNext t j nx) a).value = (getNode t a).value :=
  value_setNode_keep t j { getNode t j with next := nx } rfl a

theorem occH_setNext (t : Table V) (j : Nat) (nx : Option Nat) :
    occH (setNext t j nx) = occH t :=
  occH_setNode_keep t j { getNode t j with next := nx } rfl

/-- The values of the hash segment after the chain-head splice: the free
slot receives the new value, every other slot keeps its value. -/
theorem insertSplice_value_at (t1 : Table V) (k : Key) (v : V) (m f : Nat) (j : Nat)
    (hj : j ≠ f) :
    (getNode (insertSplice t1 k v m f) j).value = (getNode t1 j).value := by
  rw [insertSplice, value_setNext, value_setNext]
  exact congrArg Node.value (getNode_setNode_ne _ _ (Ne.symm hj))

theorem insertSplice_occ (t1 : Table V) (k : Key) (v : V) (m f : Nat) :
    occH (insertSplice t1 k v m f) ≤ occH t1 + 1 := by
  rw [insertSplice, occH_setNext, occH_setNext]
  exact occH_setNode_le _ _ _

/-- The values of the hash segment after the displaced-occupant relocation:
the main slot gets the new value, the free slot receives the predecessor
copy, every other slot keeps its value. -/
theorem insertRelocate_value_at (t1 : Table V) (k : Key) (v : V) (m f lp : Nat) (j : Nat)
    (hjf : j ≠ f) (hjm : j ≠ m) :
    (getNode (insertRelocate t1 k v m f lp) j).value = (getNode t1 j).value := by
  rw [insertRelocate]
  rw [show (getNode (setNode (setNext (setNext (setNode t1 f
      ⟨(getNode t1 lp).key, (getNode t1 lp).value, none, none⟩) f
      (getNode (setNode t1 f ⟨(getNode t1 lp).key, (getNode t1 lp).value, none, none⟩) m).next)
      lp (some f)) m ⟨some k, some v, none, none⟩) j)
      = (getNode (setNext (setNext (setNode t1 f
      ⟨(getNode t1 lp).key, (getNode t1 lp).value, none, none⟩) f
      (getNode (setNode t1 f ⟨(getNode t1 lp).key, (getNode t1 lp).value, none, none⟩) m).next)
      lp (some f)) j)
    from getNode_setNode_ne _ _ (Ne.symm hjm)]
  rw [value_setNext, value_setNext]
  exact congrArg Node.value (getNode_setNode_ne _ _ (Ne.symm hjf))

theorem insertRelocate_occ (t1 : Table V) (k : Key) (v : V) (m f lp : Nat)
    (hfm : f ≠ m) (hmv : (getNode t1 m).value.isSome = true) :
    occH (insertRelocate t1 k v m f lp) ≤ occH t1 + 1 := by
  rw [insertRelocate]
  rw [occH_setNode_some_of_some _ m ⟨some k, some v, none, none⟩ rfl ?hold]
  case hold =>
    rw [value_setNext, value_setNext]
    rw [show (getNode (setNode t1 f
        ⟨(getNode t1 lp).key, (getNode t1 lp).value, none, none⟩) m)
        = getNode t1 m from getNode_setNode_ne _ _ hfm]
    exact hmv
  rw [occH_setNext, occH_setNext]
  exact occH_setNode_le _ _ _

theorem vnext_setNode_keep (t : Table V) (i : Nat) (nd : Node V)
    (h : nd.vnext = (getNode t i).vnext) (a : Nat) :
    (getNode (setNode t i nd) a).vnext = (getNode t a).vnext := by
  by_cases hia : i = a
  · subst hia
    rcases Nat.lt_or_ge i t.hseg.length with hl | hl
    · rw [getNode_setNode_self _ _ _ hl, h]
    · rw [getNode_setNode_oob _ _ hl]
  · rw [getNode_setNode_ne _ _ hia]

theorem vnext_setNext (t : Table V) (j : Nat) (nx : Option Nat) (a : Nat) :
    (getNode (setNext t j nx) a).vnext = (getNode t a).vnext :=
  vnext_setNode_keep t j { getNode t j with next := nx } rfl a

theorem vnext_setNode_none (t : Table V) (i : Nat) (nd : Node V)
    (hnd : nd.vnext = none) (hall : allVnextNone t) :
    allVnextNone (setNode t i nd) := by
  intro a
  by_cases hia : i = a
  · subst hia
    rcases Nat.lt_or_ge i t.hseg.length with hl | hl
    · rw [getNode_setNode_self _ _ _ hl, hnd]
    · rw [getNode_setNode_oob _ _ hl]
      exact hall i
  · rw [getNode_setNode_ne _ _ hia]
    exact hall a

theorem allVnextNone_setNext (t : Table V) (j : Nat) (nx : Option Nat)
    (hall : allVnextNone t) : allVnextNone (setNext t j nx) := by
  intro a
  rw [vnext_setNext]
  exact hall a

/-- `get_free_pos` on a table with an empty vacancy list is just the
backward scan. -/
theorem getFreePos_vacNone (t : Table V) (hvac : t.vacancy = none) :
    getFreePos t = (match scanFree t.hseg t.lastFree with
      | some f => (some f, { t with lastFree := f })
      | none => (none, { t with lastFree := 0 })) := by
  rw [getFreePos, pruneVac_vacNone t hvac]

/-- On a populated-by-inserts table with at least one empty slot, the scan
finds a free slot. -/
theorem getFreePos_build (t : Table V) (hB : BuildInv t)
    (hocc : occH t < t.hseg.length) :
    ∃ f, getFreePos t = (some f, { t with lastFree := f }) := by
  obtain ⟨hal, hhl, hvac, hlf, hscan, hvn⟩ := hB
  rw [getFreePos_vacNone t hvac]
  cases hs : scanFree t.hseg t.lastFree with
  | some f => exact ⟨f, rfl⟩
  | none =>
    exfalso
    have hbelow := scanFree_none_facts t.hseg t.lastFree hs
    have hall : ∀ j, j < t.hseg.length → ((t.hseg.getD j default).value.isSome) = true := by
      intro j hj
      rcases le_or_lt j t.lastFree with h | h
      · exact hbelow j h
      · exact hscan j h hj
    have : occH t = t.hseg.length :=
      all_getD_countP t.hseg (fun nd => nd.value.isSome) default hall
    omega

/-- One rebuild insert (`new_table.insert` during resize) preserves the
build invariant, raises the hash occupancy by at most one, and keeps the
segment sizes. -/
theorem insertB_build (t : Table V) (k : Key) (v : V) (hB : BuildInv t) :
    BuildInv (insertB t k v) ∧ occH (insertB t k v) ≤ occH t + 1 ∧
    (insertB t k v).arrLog2 = t.arrLog2 ∧ (insertB t k v).hashLog2 = t.hashLog2 := by
  obtain ⟨hal, hhl, hvac, hlf, hscan, hvn⟩ := hB
  cases hres : insertNR t k v with
  | none =>
    rw [insertB, hres, Option.getD_none]
    exact ⟨⟨hal, hhl, hvac, hlf, hscan, hvn⟩, Nat.le_add_right _ 1, rfl, rfl⟩
  | some t2 =>
    rw [insertB, hres, Option.getD_some]
    rw [insertNR] at hres
    by_cases hArr : inArrRange k t.arraySize = true
    · rw [if_pos hArr] at hres
      have ht2 : t2 = { t with arr := t.arr.set (arrIdx k) (some v) } := by
        cases hres
        rfl
      subst ht2
      exact ⟨⟨by simpa using hal, hhl, hvac, hlf, hscan, hvn⟩,
        Nat.le_add_right _ 1, rfl, rfl⟩
    · rw [if_neg hArr] at hres
      simp only at hres
      have hmlt : mainIdx t k < t.hseg.length := by
        rw [hhl]
        exact mainIdx_lt t k
      by_cases hMain : ((getNode t (mainIdx t k)).value.isNone
          || keyEqO (getNode t (mainIdx t k)).key k) = true
      · rw [if_pos hMain] at hres
        have ht2 : t2 = setNode t (mainIdx t k) ⟨some k, some v, none, none⟩ := by
          cases hres
          rfl
        subst ht2
        refine ⟨⟨by simpa [setNode] using hal, by simpa [setNode] using hhl, hvac,
          by simpa [setNode] using hlf, ?_, ?_⟩, ?_, rfl, rfl⟩
        · intro j h1 h2
          rw [setNode_hseg_length] at h2
          by_cases hjm : mainIdx t k = j
          · subst hjm
            rw [getNode_setNode_self _ _ _ hmlt]
            rfl
          · rw [getNode_setNode_ne _ _ hjm]
            exact hscan j h1 h2
        · exact vnext_setNode_none t _ _ rfl hvn
        · exact countP_set_le _ _ _ _
      · rw [if_neg hMain] at hres
        have hval : (getNode t (mainIdx t k)).value.isSome = true := by
          cases hv : (getNode t (mainIdx t k)).value with
          | none => exact absurd (by simp [hv]) hMain
          | some w => rfl
        rw [getFreePos_vacNone t hvac] at hres
        cases hs : scanFree t.hseg t.lastFree with
        | none =>
          rw [hs] at hres
          cases hres
        | some f =>
          rw [hs] at hres
          simp only at hres
          obtain ⟨hfle, hfempty, hfabove⟩ := scanFree_some_facts t.hseg t.lastFree f hs
          have hfne : f ≠ mainIdx t k := by
            intro heq
            rw [heq] at hfempty
            cases hv : (getNode t (mainIdx t k)).value with
            | none => rw [hv] at hval; cases hval
            | some w =>
              have hgd : (t.hseg.getD (mainIdx t k) default).value = some w := hv
              rw [hgd] at hfempty
              cases hfempty
          have hB1 : BuildInv { t with lastFree := f } := by
            refine ⟨hal, hhl, hvac, by simpa using Nat.lt_of_le_of_lt hfle hlf, ?_, hvn⟩
            intro j h1 h2
            rcases le_or_lt j t.lastFree with h | h
            · exact hfabove j h1 h
            · exact hscan j h h2
          obtain ⟨hal1, hhl1, hvac1, hlf1, hscan1, hvn1⟩ := hB1
          have hocc1 : occH { t with lastFree := f } = occH t := rfl
          have hml1 : mainIdx t k < ({ t with lastFree := f } : Table V).hseg.length := hmlt
          have hvall : (getNode { t with lastFree := f } (mainIdx t k)).value.isSome = true := hval
          by_cases hOcc : occMain { t with lastFree := f } (mainIdx t k) = mainIdx t k
          · rw [if_pos hOcc] at hres
            have ht2 : t2 = insertSplice { t with lastFree := f } k v (mainIdx t k) f := by
              cases hres
              rfl
            subst ht2
            refine ⟨⟨?_, ?_, hvac1, ?_, ?_, ?_⟩, ?_, rfl, rfl⟩
            · simpa [insertSplice, setNext, setNode] using hal1
            · rw [insertSplice_hseg_length]
              exact hhl1
            · rw [insertSplice_hseg_length]
              exact hlf1
            · intro j h1 h2
              rw [insertSplice_hseg_length] at h2
              have hjf : j ≠ f := by
                have : f < j := h1
                omega
              show ((insertSplice { t with lastFree := f } k v (mainIdx t k) f).hseg.getD j
                default).value.isSome = true
              rw [show ((insertSplice { t with lastFree := f } k v (mainIdx t k) f).hseg.getD j
                default) = getNode (insertSplice { t with lastFree := f } k v (mainIdx t k) f) j
                from rfl]
              rw [show (getNode (insertSplice { t with lastFree := f } k v (mainIdx t k) f)
                j).value = ((getNode { t with lastFree := f } j).value) from
                insertSplice_value_at _ _ _ _ _ _ hjf]
              rcases le_or_lt j t.lastFree with h | h
              · exact hfabove j h1 h
              · exact hscan j h h2
            · rw [insertSplice]
              refine allVnextNone_setNext _ _ _ (allVnextNone_setNext _ _ _ ?_)
              exact vnext_setNode_none _ _ _ rfl hvn1
            · calc occH (insertSplice { t with lastFree := f } k v (mainIdx t k) f)
                  ≤ occH { t with lastFree := f } + 1 := insertSplice_occ _ _ _ _ _
                _ = occH t + 1 := by rw [hocc1]
          · rw [if_neg hOcc] at hres
            cases hl : findPred { t with lastFree := f } (mainIdx t k)
                (({ t with lastFree := f } : Table V).hseg.length + 1)
                (some (occMain { t with lastFree := f } (mainIdx t k))) none with
            | none =>
              rw [hl] at hres
              have ht2 : t2 = { t with lastFree := f } := by
                cases hres
                rfl
              subst ht2
              exact ⟨⟨hal1, hhl1, hvac1, hlf1, hscan1, hvn1⟩, Nat.le_add_right _ 1, rfl, rfl⟩
            | some lp =>
              rw [hl] at hres
              have ht2 : t2 = insertRelocate { t with lastFree := f } k v (mainIdx t k) f lp := by
                cases hres
                rfl
              subst ht2
              refine ⟨⟨?_, ?_, hvac1, ?_, ?_, ?_⟩, ?_, rfl, rfl⟩
              · simpa [insertRelocate, setNext, setNode] using hal1
              · rw [insertRelocate_hseg_length]
                exact hhl1
              · rw [insertRelocate_hseg_length]
                exact hlf1
              · intro j h1 h2
                rw [insertRelocate_hseg_length] at h2
                have hjf : j ≠ f := by
                  have : f < j := h1
                  omega
                show ((insertRelocate { t with lastFree := f } k v (mainIdx t k) f lp).hseg.getD j
                  default).value.isSome = true
                rw [show ((insertRelocate { t with lastFree := f } k v (mainIdx t k) f
                  lp).hseg.getD j default) = getNode (insertRelocate { t with lastFree := f } k v
                  (mainIdx t k) f lp) j from rfl]
                by_cases hjm : j = mainIdx t k
                · subst hjm
                  rw [insertRelocate_node_m _ _ _ _ _ _ hml1]
                  rfl
                · rw [show (getNode (insertRelocate { t with lastFree := f } k v (mainIdx t k) f
                    lp) j).value = ((getNode { t with lastFree := f } j).value) from
                    insertRelocate_value_at _ _ _ _ _ _ _ hjf hjm]
                  rcases le_or_lt j t.lastFree with h | h
                  · exact hfabove j h1 h
                  · exact hscan j h h2
              · rw [insertRelocate]
                refine vnext_setNode_none _ _ _ rfl ?_
                refine allVnextNone_setNext _ _ _ (allVnextNone_setNext _ _ _ ?_)
                exact vnext_setNode_none _ _ _ rfl hvn1
              · calc occH (insertRelocate { t with lastFree := f } k v (mainIdx t k) f lp)
                    ≤ occH { t with lastFree := f } + 1 :=
                      insertRelocate_occ _ _ _ _ _ _ hfne hvall
                  _ = occH t + 1 := by rw [hocc1]

/-- Fold a build step over a list: the invariant is maintained and the
occupancy grows by at most the number of active items. -/
theorem foldl_build {B : Type} (step : Table V → B → Table V) (act : B → Bool)
    (hstep : ∀ (t : Table V) (x : B), BuildInv t → BuildInv (step t x) ∧
      occH (step t x) ≤ occH t + (if act x then 1 else 0) ∧
      (step t x).arrLog2 = t.arrLog2 ∧ (step t x).hashLog2 = t.hashLog2) :
    ∀ (l : List B) (t : Table V), BuildInv t →
    BuildInv (l.foldl step t) ∧ occH (l.foldl step t) ≤ occH t + l.countP act ∧
    (l.foldl step t).arrLog2 = t.arrLog2 ∧ (l.foldl step t).hashLog2 = t.hashLog2 := by
  intro l
  induction l with
  | nil => intro t h; exact ⟨h, by simp, rfl, rfl⟩
  | cons x xs ih =>
    intro t h
    obtain ⟨h1, h2, h3, h4⟩ := hstep t x h
    obtain ⟨g1, g2, g3, g4⟩ := ih (step t x) h1
    refine ⟨g1, ?_, g3.trans h3, g4.trans h4⟩
    rw [List.foldl_cons, List.countP_cons]
    have : occH (xs.foldl step (step t x)) ≤ occH t + (if act x then 1 else 0) + xs.countP act := by
      omega
    split at this
    all_goals split
    all_goals omega

/-- The live array entries beyond the kept prefix (`boundary`): these are
reinserted through the fresh table's insert during resize. -/
def arrLeftCount (t : Table V) (boundary : Nat) : Nat :=
  (List.range' boundary (t.arraySize - boundary)).countP (fun i => (t.arr.getD i none).isSome)

/-- The live hash-segment entries that go through the fresh table's insert
during resize (everything except the entries the signed integer comparison
diverts directly into the new array). -/
def hashBoundCount (t : Table V) (newALog : Nat) : Nat :=
  (List.range t.hashSize).countP (fun j =>
    (getNode t j).value.isSome &&
    (match (getNode t j).key with
     | none => false
     | some (Key.KInt x) => decide (¬ x < ((2:Int) ^ newALog))
     | some _ => true))

theorem foldl_set_length {α : Type u} (g : Nat → α) :
    ∀ (l : List Nat) (a : List α),
    (l.foldl (fun a i => a.set i (g i)) a).length = a.length := by
  intro l
  induction l with
  | nil => intro a; rfl
  | cons x xs ih =>
    intro a
    rw [List.foldl_cons, ih]
    exact List.length_set a x (g x)

/-- The freshly rebuilt table satisfies the build invariant and its hash
occupancy is bounded by the number of entries routed through its insert. -/
theorem resize_build (t : Table V) (newALog newHLog : Nat) :
    BuildInv (resize t newALog newHLog) ∧
    occH (resize t newALog newHLog) ≤
      arrLeftCount t (min t.arraySize (2 ^ newALog)) + hashBoundCount t newALog ∧
    (resize t newALog newHLog).arrLog2 = newALog ∧
    (resize t newALog newHLog).hashLog2 = newHLog := by
  obtain ⟨hB0, hocc0⟩ := mkTable_BuildInv (V := V) newALog newHLog
  rw [resize]
  set f0 : Table V := mkTable V newALog newHLog with hf0
  set boundary := min t.arraySize (2 ^ newALog) with hbd
  set f1 : Table V := { f0 with arr := ((List.range boundary).foldl
      (fun a i => a.set i (t.arr.getD i none)) f0.arr) } with hf1
  have hB1 : BuildInv f1 ∧ occH f1 = 0 ∧ f1.arrLog2 = newALog ∧ f1.hashLog2 = newHLog := by
    obtain ⟨b1, b2, b3, b4, b5, b6⟩ := hB0
    refine ⟨⟨?_, b2, b3, b4, b5, b6⟩, hocc0, rfl, rfl⟩
    show ((List.range boundary).foldl (fun a i => a.set i (t.arr.getD i none)) f0.arr).length
      = 2 ^ f0.arrLog2
    rw [foldl_set_length]
    exact b1
  have hstep2 : ∀ (ft : Table V) (i : Nat), BuildInv ft →
      BuildInv (match t.arr.getD i none with
        | some v => insertB ft (Key.KInt i) v
        | none => ft) ∧
      occH (match t.arr.getD i none with
        | some v => insertB ft (Key.KInt i) v
        | none => ft) ≤ occH ft + (if (t.arr.getD i none).isSome then 1 else 0) ∧
      (match t.arr.getD i none with
        | some v => insertB ft (Key.KInt i) v
        | none => ft).arrLog2 = ft.arrLog2 ∧
      (match t.arr.getD i none with
        | some v => insertB ft (Key.KInt i) v
        | none => ft).hashLog2 = ft.hashLog2 := by
    intro ft i hft
    cases hd : t.arr.getD i none with
    | none => exact ⟨hft, by simp, rfl, rfl⟩
    | some v =>
      obtain ⟨g1, g2, g3, g4⟩ := insertB_build ft (Key.KInt i) v hft
      exact ⟨g1, by simpa using g2, g3, g4⟩
  obtain ⟨hB2, hocc2, hA2, hH2⟩ := foldl_build _ _ hstep2
    (List.range' boundary (t.arraySize - boundary)) f1 hB1.1
  set f2 : Table V := (List.range' boundary (t.arraySize - boundary)).foldl
    (fun ft i => match t.arr.getD i none with
      | some v => insertB ft (Key.KInt i) v
      | none => ft) f1 with hf2
  have hstep3 : ∀ (ft : Table V) (j : Nat), BuildInv ft →
      BuildInv (match (getNode t j).value with
        | none => ft
        | some v => match (getNode t j).key with
          | none => ft
          | some (Key.KInt x) =>
            if x < ((2:Int) ^ newALog) then
              if 0 ≤ x then { ft with arr := ft.arr.set x.toNat (some v) }
              else ft
            else insertB ft (Key.KInt x) v
          | some kk => insertB ft kk v) ∧
      occH (match (getNode t j).value with
        | none => ft
        | some v => match (getNode t j).key with
          | none => ft
          | some (Key.KInt x) =>
            if x < ((2:Int) ^ newALog) then
              if 0 ≤ x then { ft with arr := ft.arr.set x.toNat (some v) }
              else ft
            else insertB ft (Key.KInt x) v
          | some kk => insertB ft kk v) ≤ occH ft +
        (if ((getNode t j).value.isSome &&
          (match (getNode t j).key with
           | none => false
           | some (Key.KInt x) => decide (¬ x < ((2:Int) ^ newALog))
           | some _ => true)) then 1 else 0) ∧
      (match (getNode t j).value with
        | none => ft
        | some v => match (getNode t j).key with
          | none => ft
          | some (Key.KInt x) =>
            if x < ((2:Int) ^ newALog) then
              if 0 ≤ x then { ft with arr := ft.arr.set x.toNat (some v) }
              else ft
            else insertB ft (Key.KInt x) v
          | some kk => insertB ft kk v).arrLog2 = ft.arrLog2 ∧
      (match (getNode t j).value with
        | none => ft
        | some v => match (getNode t j).key with
          | none => ft
          | some (Key.KInt x) =>
            if x < ((2:Int) ^ newALog) then
              if 0 ≤ x then { ft with arr := ft.arr.set x.toNat (some v) }
              else ft
            else insertB ft (Key.KInt x) v
          | some kk => insertB ft kk v).hashLog2 = ft.hashLog2 := by
    intro ft j hft
    cases hv : (getNode t j).value with
    | none => exact ⟨hft, by simp, rfl, rfl⟩
    | some v =>
      cases hk : (getNode t j).key with
      | none => exact ⟨hft, by simp, rfl, rfl⟩
      | some kk =>
        cases kk with
        | KInt x =>
          simp only []
          by_cases hlt : x < ((2:Int) ^ newALog)
          · rw [if_pos hlt]
            by_cases hge : (0:Int) ≤ x
            · rw [if_pos hge]
              obtain ⟨c1, c2, c3, c4, c5, c6⟩ := hft
              refine ⟨⟨?_, c2, c3, c4, c5, c6⟩, ?_, rfl, rfl⟩
              · show (ft.arr.set x.toNat (some v)).length = 2 ^ ft.arrLog2
                rw [List.length_set]
                exact c1
              · simp [occH, hlt]
            · rw [if_neg hge]
              exact ⟨hft, by simp [hlt], rfl, rfl⟩
          · rw [if_neg hlt]
            obtain ⟨g1, g2, g3, g4⟩ := insertB_build ft (Key.KInt x) v hft
            refine ⟨g1, ?_, g3, g4⟩
            simpa [hlt] using g2
        | KNum n =>
          obtain ⟨g1, g2, g3, g4⟩ := insertB_build ft (Key.KNum n) v hft
          exact ⟨g1, by simpa using g2, g3, g4⟩
        | KStr a =>
          obtain ⟨g1, g2, g3, g4⟩ := insertB_build ft (Key.KStr a) v hft
          exact ⟨g1, by simpa using g2, g3, g4⟩
        | KPtr a =>
          obtain ⟨g1, g2, g3, g4⟩ := insertB_build ft (Key.KPtr a) v hft
          exact ⟨g1, by simpa using g2, g3, g4⟩
        | KH a c =>
          obtain ⟨g1, g2, g3, g4⟩ := insertB_build ft (Key.KH a c) v hft
          exact ⟨g1, by simpa using g2, g3, g4⟩
  obtain ⟨hB3, hocc3, hA3, hH3⟩ := foldl_build _ _ hstep3 (List.range t.hashSize) f2 hB2
  refine ⟨hB3, ?_, hA3.trans (hA2.trans hB1.2.2.1), hH3.trans (hH2.trans hB1.2.2.2)⟩
  calc occH ((List.range t.hashSize).foldl _ f2)
      ≤ occH f2 + hashBoundCount t newALog := hocc3
    _ ≤ (occH f1 + arrLeftCount t boundary) + hashBoundCount t newALog := by
        have := hocc2
        rw [arrLeftCount]
        omega
    _ = arrLeftCount t boundary + hashBoundCount t newALog := by
        rw [hB1.2.1]
        omega

/-! ### The sizing arithmetic of recompute_size -/

/-- The number of counted integer keys below a bound (`total - 1` of the
selection loop when the bound is the prospective array size). -/
def cntLT (t : Table V) (b : Nat) : Nat := (counterItems t).countP (fun x => x < b)

theorem counterItems_pos (t : Table V) : ∀ x ∈ counterItems t, 1 ≤ x := by
  intro x hx
  rw [counterItems, List.mem_append] at hx
  rcases hx with hx | hx
  · have := List.mem_of_mem_filter hx
    exact (List.mem_range'_1.mp this).1
  · rw [List.mem_filterMap] at hx
    obtain ⟨nd, _, hnd⟩ := hx
    cases hv : nd.value with
    | none => rw [hv] at hnd; cases hnd
    | some w =>
      rw [hv] at hnd
      cases hk : nd.key with
      | none => rw [hk] at hnd; cases hnd
      | some kk =>
        rw [hk] at hnd
        cases kk with
        | KInt y =>
          simp only at hnd
          by_cases hy : (1:Int) ≤ y
          · rw [if_pos hy] at hnd
            cases hnd
            omega
          · rw [if_neg hy] at hnd
            cases hnd
        | KNum n => cases hnd
        | KStr a => cases hnd
        | KPtr a => cases hnd
        | KH a c => cases hnd

theorem countP_or_disjoint_mem {α : Type u} (l : List α) (p q : α → Bool)
    (hpq : ∀ x ∈ l, p x = true → q x = true → False) :
    l.countP (fun x => p x || q x) = l.countP p + l.countP q := by
  induction l with
  | nil => simp
  | cons x xs ih =>
    have ih' := ih (fun y hy => hpq y (List.mem_cons_of_mem x hy))
    simp only [List.countP_cons, ih']
    by_cases hp : p x = true
    · have hq : ¬ q x = true := fun hq => hpq x (List.mem_cons_self x xs) hp hq
      simp [hp, hq]
      omega
    · by_cases hq : q x = true
      · simp [hp, hq]
        try omega
      · simp [hp, hq]
        try omega

theorem cntLT_one (t : Table V) : cntLT t 1 = 0 := by
  rw [cntLT, List.countP_eq_zero]
  intro x hx
  have := counterItems_pos t x hx
  simp
  omega

theorem bitCgo_eq_log2 : ∀ (fuel n : Nat), n ≤ fuel → bitCgo fuel n = Nat.log2 n := by
  intro fuel
  induction fuel with
  | zero =>
    intro n hn
    have h0 : n = 0 := Nat.le_zero.mp hn
    subst h0
    rw [Nat.log2]
    rfl
  | succ m ih =>
    intro n hn
    rw [bitCgo, Nat.log2]
    by_cases h2 : 2 ≤ n
    · rw [if_pos h2, if_pos h2]
      have hd : n / 2 < n := Nat.div_lt_self (by omega) (by omega)
      rw [ih (n / 2) (by omega)]
    · rw [if_neg h2, if_neg h2]

theorem bitC_eq_log2 (x : Nat) : bitC x = Nat.log2 x := bitCgo_eq_log2 x x le_rfl

theorem cntLT_succ_pow (t : Table V) (n : Nat) :
    cntLT t (2 ^ (n + 1)) = cntLT t (2 ^ n) + counterAt t n := by
  rw [cntLT, cntLT, counterAt]
  have hcongr : (counterItems t).countP (fun x => x < 2 ^ (n + 1))
      = (counterItems t).countP (fun x => (decide (x < 2 ^ n)) || (decide (bitC x = n))) := by
    refine List.countP_congr (fun x hx => ?_)
    have hx1 : x ≠ 0 := by
      have := counterItems_pos t x hx
      omega
    simp only [decide_eq_true_eq, Bool.or_eq_true]
    constructor
    · intro h
      have hlt : x.log2 < n + 1 := (Nat.log2_lt hx1).mpr h
      rcases Nat.lt_or_ge x.log2 n with h2 | h2
      · exact Or.inl ((Nat.log2_lt hx1).mp h2)
      · right
        rw [bitC_eq_log2]
        omega
    · intro h
      rcases h with h | h
      · have : x.log2 < n := (Nat.log2_lt hx1).mpr h
        exact (Nat.log2_lt hx1).mp (by omega)
      · have : x.log2 < n + 1 := by
          rw [← bitC_eq_log2, h]
          omega
        exact (Nat.log2_lt hx1).mp this
  rw [hcongr]
  refine countP_or_disjoint_mem _ _ _ (fun x hx h1 h2 => ?_)
  have hx1 : x ≠ 0 := by
    have := counterItems_pos t x hx
    omega
  simp only [decide_eq_true_eq] at h1 h2
  have : x.log2 < n := (Nat.log2_lt hx1).mpr h1
  rw [bitC_eq_log2] at h2
  omega

/-- The selection loop of `recompute_size` as a function of the number of
processed iterations (31 in the code), carrying
`(total, new_array_size_log2, array_part)`. -/
def chooseFold (t : Table V) (n : Nat) : Nat × Nat × Nat :=
  (List.range n).foldl (fun (st : Nat × Nat × Nat) i =>
    let total := st.1 + counterAt t i
    if 2 ^ i < total then (total, i + 1, total) else (total, st.2.1, st.2.2)) (1, 0, 0)

theorem chooseArr_eq_fold (t : Table V) : chooseArr t = (chooseFold t 31).2 := rfl

theorem chooseFold_succ (t : Table V) (n : Nat) :
    chooseFold t (n + 1) =
    (let total := (chooseFold t n).1 + counterAt t n
     if 2 ^ n < total then (total, n + 1, total)
     else (total, (chooseFold t n).2.1, (chooseFold t n).2.2)) := by
  rw [chooseFold, chooseFold, List.range_succ, List.foldl_append, List.foldl_cons,
    List.foldl_nil]

/-- Characterization of the size-selection loop of `recompute_size`: the
running total is one more than the count of keys below the prefix bound,
and the selection is either `(0, 0)` (no prefix more than half populated)
or `(i+1, 1 + cntLT (2^(i+1)))` for the largest qualifying `i`. -/
theorem chooseFold_spec (t : Table V) : ∀ n : Nat,
    (chooseFold t n).1 = 1 + cntLT t (2 ^ n) ∧
    (((chooseFold t n).2 = ((0:Nat), (0:Nat)) ∧
        ∀ i, i < n → ¬ (2 ^ i < 1 + cntLT t (2 ^ (i + 1)))) ∨
      (∃ i, i < n ∧ (chooseFold t n).2 = (i + 1, 1 + cntLT t (2 ^ (i + 1))) ∧
        2 ^ i < 1 + cntLT t (2 ^ (i + 1)) ∧
        ∀ i', i < i' → i' < n → ¬ (2 ^ i' < 1 + cntLT t (2 ^ (i' + 1))))) := by
  intro n
  induction n with
  | zero =>
    constructor
    · show (1:Nat) = 1 + cntLT t 1
      rw [cntLT_one]
    · left
      exact ⟨rfl, fun i h => absurd h (by omega)⟩
  | succ n ih =>
    obtain ⟨ih1, ih2⟩ := ih
    rw [chooseFold_succ]
    have htot : (chooseFold t n).1 + counterAt t n = 1 + cntLT t (2 ^ (n + 1)) := by
      rw [ih1, cntLT_succ_pow]
      omega
    by_cases hc : 2 ^ n < (chooseFold t n).1 + counterAt t n
    · simp only [if_pos hc]
      refine ⟨htot, Or.inr ⟨n, by omega, ?_, ?_, ?_⟩⟩
      · rw [htot]
      · rw [htot] at hc
        exact hc
      · intro i' h1 h2
        omega
    · simp only [if_neg hc]
      have hncond : ¬ (2 ^ n < 1 + cntLT t (2 ^ (n + 1))) := by
        rw [← htot]
        exact hc
      refine ⟨htot, ?_⟩
      rcases ih2 with ⟨h1, h2⟩ | ⟨i, hi1, hi2, hi3, hi4⟩
      · left
        refine ⟨h1, fun i h => ?_⟩
        rcases Nat.lt_or_ge i n with h' | h'
        · exact h2 i h'
        · have : i = n := by omega
          subst this
          exact hncond
      · right
        refine ⟨i, by omega, hi2, hi3, fun i' ha hb => ?_⟩
        rcases Nat.lt_or_ge i' n with h' | h'
        · exact hi4 i' ha h'
        · have : i' = n := by omega
          subst this
          exact hncond

theorem chooseArr_spec (t : Table V) :
    (chooseArr t = (0, 0) ∧ ∀ i, i < 31 → ¬ (2 ^ i < 1 + cntLT t (2 ^ (i + 1)))) ∨
    (∃ i, i < 31 ∧ chooseArr t = (i + 1, 1 + cntLT t (2 ^ (i + 1))) ∧
      2 ^ i < 1 + cntLT t (2 ^ (i + 1)) ∧
      ∀ i', i < i' → i' < 31 → ¬ (2 ^ i' < 1 + cntLT t (2 ^ (i' + 1)))) := by
  have h31 := chooseFold_spec t 31
  rw [chooseArr_eq_fold]
  rcases h31.2 with ⟨h1, h2⟩ | ⟨i, h1, h2, h3, h4⟩
  · left
    exact ⟨h1, h2⟩
  · right
    exact ⟨i, h1, h2, h3, h4⟩

/-- The array-sourced part of `cntLT`. -/
def cntA (t : Table V) (b : Nat) : Nat :=
  (List.range' 1 (t.arraySize - 1)).countP
    (fun i => decide (i < b) && (t.arr.getD i none).isSome)

/-- The hash-sourced part of `cntLT`. -/
def cntH (t : Table V) (b : Nat) : Nat :=
  t.hseg.countP (fun nd => nd.value.isSome &&
    (match nd.key with
     | some (Key.KInt x) => decide (1 ≤ x) && decide (x.toNat < b)
     | _ => false))

theorem cntLT_split (t : Table V) (b : Nat) : cntLT t b = cntA t b + cntH t b := by
  rw [cntLT, counterItems, List.countP_append]
  congr 1
  · rw [List.countP_filter]
    rfl
  · rw [countP_filterMap_decomp]
    refine List.countP_congr (fun nd _ => ?_)
    cases hv : nd.value with
    | none => simp
    | some w =>
      cases hk : nd.key with
      | none => simp
      | some kk =>
        cases kk with
        | KInt x =>
          by_cases hx : (1:Int) ≤ x
          · simp [hx]
          · simp [hx]
        | KNum n => simp
        | KStr a => simp
        | KPtr a => simp
        | KH a c => simp

theorem range'_one_split (a b : Nat) (h1 : 1 ≤ b) (h2 : b ≤ a) :
    List.range' 1 (a - 1) = List.range' 1 (b - 1) ++ List.range' b (a - b) := by
  have h := List.range'_append 1 (b - 1) (a - b) 1
  rw [show 1 + 1 * (b - 1) = b by omega, show (a - b) + (b - 1) = a - 1 by omega] at h
  exact h.symm

theorem arraySize_pos (t : Table V) : 1 ≤ t.arraySize := Nat.pos_pow_of_pos _ (by omega)

/-- The array-sourced count below the new array bound plus the leftover
live array entries equals all live array entries at indices `≥ 1`. -/
theorem cntA_arrLeft (t : Table V) (b : Nat) (hb : 1 ≤ b) :
    cntA t b + arrLeftCount t (min t.arraySize b) = liveArrTail t := by
  have hasz := arraySize_pos t
  set boundary := min t.arraySize b with hbd
  have hb1 : 1 ≤ boundary := by omega
  have hb2 : boundary ≤ t.arraySize := by omega
  have hsplit := range'_one_split t.arraySize boundary hb1 hb2
  rw [cntA, liveArrTail, arrLeftCount, hsplit, List.countP_append, List.countP_append]
  have hfirst : (List.range' 1 (boundary - 1)).countP
      (fun i => decide (i < b) && (t.arr.getD i none).isSome)
      = (List.range' 1 (boundary - 1)).countP (fun i => (t.arr.getD i none).isSome) := by
    refine List.countP_congr (fun x hx => ?_)
    have hxb : x < boundary := by
      have := (List.mem_range'_1.mp hx).2
      omega
    have : x < b := by omega
    simp [this]
  have hsecond : (List.range' boundary (t.arraySize - boundary)).countP
      (fun i => decide (i < b) && (t.arr.getD i none).isSome) = 0 := by
    rw [List.countP_eq_zero]
    intro x hx
    have hxb : boundary ≤ x := (List.mem_range'_1.mp hx).1
    have hbx : b ≤ x := by
      rcases le_or_lt b t.arraySize with h | h
      · have : boundary = b := by omega
        omega
      · have hlt := (List.mem_range'_1.mp hx).2
        omega
    simp
    omega
  rw [hfirst, hsecond]
  omega

/-- The hash-sourced count below the new bound and the entries routed to
the fresh table's insert are disjoint among the occupied slots. -/
theorem cntH_hashBound_le (t : Table V) (aLog : Nat) (hlen : t.hseg.length = t.hashSize) :
    cntH t (2 ^ aLog) + hashBoundCount t aLog ≤ occH t := by
  have hHB : hashBoundCount t aLog = t.hseg.countP (fun nd => nd.value.isSome &&
      (match nd.key with
       | none => false
       | some (Key.KInt x) => decide (¬ x < ((2:Int) ^ aLog))
       | some _ => true)) := by
    rw [hashBoundCount, ← hlen]
    exact countP_getD_range t.hseg (fun nd => nd.value.isSome &&
      (match nd.key with
       | none => false
       | some (Key.KInt x) => decide (¬ x < ((2:Int) ^ aLog))
       | some _ => true)) default
  rw [hHB, cntH, occH]
  refine countP_disjoint_le t.hseg _ _ _ ?_ ?_ ?_
  · intro nd h1 h2
    rw [Bool.and_eq_true] at h1 h2
    obtain ⟨hv1, hk1⟩ := h1
    obtain ⟨hv2, hk2⟩ := h2
    cases hk : nd.key with
    | none =>
      rw [hk] at hk1
      cases hk1
    | some kk =>
      rw [hk] at hk1 hk2
      cases kk with
      | KInt x =>
        rw [Bool.and_eq_true, decide_eq_true_eq, decide_eq_true_eq] at hk1
        rw [decide_eq_true_eq] at hk2
        obtain ⟨hx1, hx2⟩ := hk1
        refine hk2 ?_
        have hcast : ((2:Int) ^ aLog) = ((2 ^ aLog : Nat) : Int) := by push_cast; ring
        rw [hcast]
        omega
      | KNum n => cases hk1
      | KStr a => cases hk1
      | KPtr a => cases hk1
      | KH a c => cases hk1
  · intro nd h
    rw [Bool.and_eq_true] at h
    exact h.1
  · intro nd h
    rw [Bool.and_eq_true] at h
    exact h.1

/-- The central capacity inequality: everything the resize routes through
the fresh table's insert, together with the chosen `array_part` and one
spare, fits inside the initial `hash_part` count. -/
theorem items_bound (t : Table V) (hlen : t.hseg.length = t.hashSize) :
    arrLeftCount t (min t.arraySize (2 ^ (chooseArr t).1)) + hashBoundCount t (chooseArr t).1
      + (chooseArr t).2 + 1 ≤ hashPartInit t := by
  rw [hashPartInit]
  rcases chooseArr_spec t with ⟨hc, _⟩ | ⟨i, _, hc, _, _⟩
  · have hc1 : (chooseArr t).1 = 0 := by rw [hc]
    have hc2 : (chooseArr t).2 = 0 := by rw [hc]
    rw [hc1, hc2]
    have hA := cntA_arrLeft t (2 ^ (0:Nat)) (by norm_num)
    have hH := cntH_hashBound_le t 0 hlen
    have hA0 : cntA t (2 ^ (0:Nat)) = 0 := by
      rw [cntA, List.countP_eq_zero]
      intro x hx
      have hx1 : 1 ≤ x := (List.mem_range'_1.mp hx).1
      simp
      omega
    omega
  · have hc1 : (chooseArr t).1 = i + 1 := by rw [hc]
    have hc2 : (chooseArr t).2 = 1 + cntLT t (2 ^ (i + 1)) := by rw [hc]
    rw [hc1, hc2]
    have hA := cntA_arrLeft t (2 ^ (i + 1)) (Nat.pos_pow_of_pos _ (by omega))
    have hH := cntH_hashBound_le t (i + 1) hlen
    have hsplit := cntLT_split t (2 ^ (i + 1))
    omega

theorem recomputeSize_eq (t : Table V) : recomputeSize t =
    resize t (chooseArr t).1 (max 1 (bitC (hashPartInit t - (chooseArr t).2) + 1)) := rfl

/-- `recompute_size` always produces a table with room: at least two hash
slots beyond the rebuilt occupancy (one for the insertion that triggered
the resize, and one more). -/
theorem recomputeSize_room (t : Table V) (hwf : wfLite t) :
    BuildInv (recomputeSize t) ∧ 1 ≤ (recomputeSize t).hashLog2 ∧
    occH (recomputeSize t) + 2 ≤ (recomputeSize t).hashSize := by
  obtain ⟨hal, hhl, hlog, hlf, hhead, hlinks⟩ := hwf
  have hlen : t.hseg.length = t.hashSize := hhl
  rw [recomputeSize_eq]
  obtain ⟨hB, hocc, hA, hH⟩ := resize_build t (chooseArr t).1
    (max 1 (bitC (hashPartInit t - (chooseArr t).2) + 1))
  have hib := items_bound t hlen
  have hhp1 : 1 ≤ hashPartInit t - (chooseArr t).2 := by omega
  have hpow : hashPartInit t - (chooseArr t).2
      < 2 ^ (bitC (hashPartInit t - (chooseArr t).2) + 1) := by
    rw [bitC_eq_log2]
    exact (Nat.log2_lt (by omega)).mp (Nat.lt_succ_self _)
  have h2 : hashPartInit t - (chooseArr t).2 + 1
      ≤ 2 ^ (max 1 (bitC (hashPartInit t - (chooseArr t).2) + 1)) := by
    have hmono : 2 ^ (bitC (hashPartInit t - (chooseArr t).2) + 1)
        ≤ 2 ^ (max 1 (bitC (hashPartInit t - (chooseArr t).2) + 1)) :=
      Nat.pow_le_pow_right (by omega) (le_max_right _ _)
    omega
  refine ⟨hB, ?_, ?_⟩
  · rw [hH]
    exact le_max_left _ _
  · have hocc2 : occH (resize t (chooseArr t).1
        (max 1 (bitC (hashPartInit t - (chooseArr t).2) + 1))) + 2
        ≤ hashPartInit t - (chooseArr t).2 + 1 := by omega
    calc occH (resize t (chooseArr t).1
          (max 1 (bitC (hashPartInit t - (chooseArr t).2) + 1))) + 2
        ≤ hashPartInit t - (chooseArr t).2 + 1 := hocc2
      _ ≤ 2 ^ (max 1 (bitC (hashPartInit t - (chooseArr t).2) + 1)) := h2
      _ = (resize t (chooseArr t).1
            (max 1 (bitC (hashPartInit t - (chooseArr t).2) + 1))).hashSize := by
          rw [Table.hashSize, hH]

theorem insertNR_none_freePos (t : Table V) (k : Key) (v : V) (h : insertNR t k v = none) :
    (getFreePos t).1 = none := by
  rw [insertNR] at h
  by_cases hArr : inArrRange k t.arraySize = true
  · rw [if_pos hArr] at h
    cases h
  · rw [if_neg hArr] at h
    simp only at h
    by_cases hMain : ((getNode t (mainIdx t k)).value.isNone
        || keyEqO (getNode t (mainIdx t k)).key k) = true
    · rw [if_pos hMain] at h
      cases h
    · rw [if_neg hMain] at h
      rcases hfp : getFreePos t with ⟨r, t1⟩
      rw [hfp] at h
      cases r with
      | none => rfl
      | some f =>
        simp only at h
        by_cases hOcc : occMain t1 (mainIdx t k) = mainIdx t k
        · rw [if_pos hOcc] at h
          cases h
        · rw [if_neg hOcc] at h
          cases hl : findPred t1 (mainIdx t k) (t1.hseg.length + 1)
              (some (occMain t1 (mainIdx t k))) none with
          | none =>
            rw [hl] at h
            cases h
          | some lp =>
            rw [hl] at h
            cases h

/-- On a freshly built table with spare capacity, the insert attempt cannot
fail. -/
theorem insertNR_some_of_room (t' : Table V) (k : Key) (v : V)
    (hB : BuildInv t') (hroom : occH t' < t'.hseg.length) :
    ∃ t2, insertNR t' k v = some t2 := by
  cases hres : insertNR t' k v with
  | some t2 => exact ⟨t2, rfl⟩
  | none =>
    exfalso
    have hfp := insertNR_none_freePos t' k v hres
    obtain ⟨f, hf⟩ := getFreePos_build t' hB hroom
    rw [hf] at hfp
    cases hfp

theorem recomputeSize_wfLite (t : Table V) (hwf : wfLite t) :
    wfLite (recomputeSize t) := by
  obtain ⟨hB, hlog, _⟩ := recomputeSize_room t hwf
  exact BuildInv_wfLite _ hB hlog

theorem recomputeSize_occlt (t : Table V) (hwf : wfLite t) :
    occH (recomputeSize t) < (recomputeSize t).hseg.length := by
  obtain ⟨hB, _, hroom⟩ := recomputeSize_room t hwf
  obtain ⟨_, hhl, _, _, _, _⟩ := hB
  rw [hhl]
  rw [Table.hashSize] at hroom
  omega

/-- How `insert` resolves: either the first attempt succeeds, or the first
attempt fails, the sizes are recomputed, and the retried attempt succeeds
(resize always frees capacity). -/
theorem insertK_resolve (t : Table V) (k : Key) (v : V) (hwf : wfLite t) :
    (∃ t2, insertNR t k v = some t2 ∧ insertK t k v = t2) ∨
    (insertNR t k v = none ∧
      ∃ t2, insertNR (recomputeSize t) k v = some t2 ∧ insertK t k v = t2) := by
  cases hres : insertNR t k v with
  | some t2 =>
    left
    refine ⟨t2, rfl, ?_⟩
    rw [insertK, hres]
  | none =>
    right
    obtain ⟨t2, ht2⟩ := insertNR_some_of_room (recomputeSize t) k v
      (recomputeSize_room t hwf).1 (recomputeSize_occlt t hwf)
    refine ⟨rfl, t2, ht2, ?_⟩
    rw [insertK, hres]
    show (insertNR (recomputeSize t) k v).getD (recomputeSize t) = t2
    rw [ht2]
    rfl

/-! ### A decidable form of structural well-formedness -/

/-- Bounded form of an optional index constraint. -/
def optBound (o : Option Nat) (n : Nat) : Prop :=
  match o with
  | none => True
  | some j => j < n

instance (o : Option Nat) (n : Nat) : Decidable (optBound o n) := by
  cases o with
  | none => exact isTrue trivial
  | some j => exact inferInstanceAs (Decidable (j < n))

/-- A decidable check equivalent to `wfLite` (the free-list link condition
only needs testing on in-range slots). -/
def wfCheck (t : Table V) : Prop :=
  t.arr.length = 2 ^ t.arrLog2 ∧ t.hseg.length = 2 ^ t.hashLog2 ∧ 1 ≤ t.hashLog2 ∧
  t.lastFree < t.hseg.length ∧ optBound t.vacancy t.hseg.length ∧
  (∀ j, j < t.hseg.length → optBound (getNode t j).vnext t.hseg.length)

instance (t : Table V) : Decidable (wfCheck t) := by
  unfold wfCheck
  have : Decidable (∀ j, j < t.hseg.length → optBound (getNode t j).vnext t.hseg.length) :=
    Nat.decidableBallLT _ _
  infer_instance

theorem wfLite_iff_check (t : Table V) : wfLite t ↔ wfCheck t := by
  constructor
  · rintro ⟨h1, h2, h3, h4, h5, h6⟩
    refine ⟨h1, h2, h3, h4, ?_, ?_⟩
    · cases hv : t.vacancy with
      | none => trivial
      | some j => exact h5 j hv
    · intro j _
      cases hv : (getNode t j).vnext with
      | none => trivial
      | some i => exact h6 j i hv
  · rintro ⟨h1, h2, h3, h4, h5, h6⟩
    refine ⟨h1, h2, h3, h4, ?_, ?_⟩
    · intro j hv
      rw [hv] at h5
      exact h5
    · intro j i hv
      rcases Nat.lt_or_ge j t.hseg.length with hj | hj
      · have := h6 j hj
        rw [hv] at this
        exact this
      · rw [vnext_oob t hj] at hv
        cases hv

theorem wfLite_mkTable (aLog hLog : Nat) (h : 1 ≤ hLog) : wfLite (mkTable V aLog hLog) :=
  BuildInv_wfLite _ (mkTable_BuildInv aLog hLog).1 h

/-! ### The array/hash exclusivity invariant (claim about Integer keys) -/

/-- A stored key is outside the array range: not an `Integer` in
`[0, array_size)`. -/
def keyOutsideArr (ok : Option Key) (asz : Nat) : Prop :=
  match ok with
  | some (Key.KInt i) => ¬ (0 ≤ i ∧ i < (asz : Int))
  | _ => True

instance (ok : Option Key) (asz : Nat) : Decidable (keyOutsideArr ok asz) := by
  cases ok with
  | none => exact isTrue trivial
  | some kk =>
    cases kk with
    | KInt i => exact inferInstanceAs (Decidable (¬ (0 ≤ i ∧ i < (asz : Int))))
    | KNum n => exact isTrue trivial
    | KStr s => exact isTrue trivial
    | KPtr p => exact isTrue trivial
    | KH p c => exact isTrue trivial

/-- Invariant (3) of the spec's data model, restricted to integer keys: no
live hash-segment entry carries an `Integer` key inside `[0, array_size)`. -/
def intInvariant (t : Table V) : Prop :=
  ∀ j, j < t.hseg.length → (getNode t j).value.isSome = true →
    keyOutsideArr (getNode t j).key t.arraySize

instance (t : Table V) : Decidable (intInvariant t) := by
  unfold intInvariant
  exact Nat.decidableBallLT _ _

/-- A key that fails the `key->type() == INT && key->item() < array_size()`
guard is outside the array range. -/
theorem keyOutsideArr_of_guard (k : Key) (asz : Nat) (h : inArrRange k asz = false) :
    keyOutsideArr (some k) asz := by
  cases k with
  | KInt i =>
    show ¬ (0 ≤ i ∧ i < (asz : Int))
    rintro ⟨h0, hlt⟩
    rw [inArrRange, decide_eq_false_iff_not] at h
    refine h ?_
    rcases le_or_lt (asz : Int) ((U64 : Nat) : Int) with hA | hA
    · have hiU : i < ((U64 : Nat) : Int) := lt_of_lt_of_le hlt hA
      have hemod : i.emod ((U64 : Nat) : Int) = i :=
        Int.emod_eq_of_lt h0 (by exact_mod_cast hiU)
      rw [uitem]
      rw [show ((U64 : Int)) = (((U64 : Nat)) : Int) from by norm_num [U64]]
      rw [hemod]
      omega
    · have hU0 : (0:Int) < ((U64 : Nat) : Int) := by norm_num [U64]
      have hnn := Int.emod_nonneg i (show (((U64 : Nat)) : Int) ≠ 0 by omega)
      have hub := Int.emod_lt_of_pos i hU0
      rw [uitem]
      rw [show ((U64 : Int)) = (((U64 : Nat)) : Int) from by norm_num [U64]]
      show (i % (((U64 : Nat)) : Int)).toNat < asz
      omega
  | KNum n => trivial
  | KStr s => trivial
  | KPtr p => trivial
  | KH p c => trivial

theorem key_setNode_keep (t : Table V) (i : Nat) (nd : Node V)
    (h : nd.key = (getNode t i).key) (a : Nat) :
    (getNode (setNode t i nd) a).key = (getNode t a).key := by
  by_cases hia : i = a
  · subst hia
    rcases Nat.lt_or_ge i t.hseg.length with hl | hl
    · rw [getNode_setNode_self _ _ _ hl, h]
    · rw [getNode_setNode_oob _ _ hl]
  · rw [getNode_setNode_ne _ _ hia]

theorem key_setNext (t : Table V) (j : Nat) (nx : Option Nat) (a : Nat) :
    (getNode (setNext t j nx) a).key = (getNode t a).key :=
  key_setNode_keep t j { getNode t j with next := nx } rfl a

theorem insertSplice_key_at (t1 : Table V) (k : Key) (v : V) (m f : Nat) (j : Nat)
    (hj : j ≠ f) :
    (getNode (insertSplice t1 k v m f) j).key = (getNode t1 j).key := by
  rw [insertSplice, key_setNext, key_setNext]
  exact congrArg Node.key (getNode_setNode_ne _ _ (Ne.symm hj))

theorem insertRelocate_key_at (t1 : Table V) (k : Key) (v : V) (m f lp : Nat) (j : Nat)
    (hjf : j ≠ f) (hjm : j ≠ m) :
    (getNode (insertRelocate t1 k v m f lp) j).key = (getNode t1 j).key := by
  rw [insertRelocate]
  rw [show (getNode (setNode (setNext (setNext (setNode t1 f
      ⟨(getNode t1 lp).key, (getNode t1 lp).value, none, none⟩) f
      (getNode (setNode t1 f ⟨(getNode t1 lp).key, (getNode t1 lp).value, none, none⟩) m).next)
      lp (some f)) m ⟨some k, some v, none, none⟩) j)
      = (getNode (setNext (setNext (setNode t1 f
      ⟨(getNode t1 lp).key, (getNode t1 lp).value, none, none⟩) f
      (getNode (setNode t1 f ⟨(getNode t1 lp).key, (getNode t1 lp).value, none, none⟩) m).next)
      lp (some f)) j)
    from getNode_setNode_ne _ _ (Ne.symm hjm)]
  rw [key_setNext, key_setNext]
  exact congrArg Node.key (getNode_setNode_ne _ _ (Ne.symm hjf))

theorem insertSplice_node_f_any (t1 : Table V) (k : Key) (v : V) (m f : Nat)
    (hf : f < t1.hseg.length) (hfm : f ≠ m) :
    (getNode (insertSplice t1 k v m f) f).key = some k ∧
    (getNode (insertSplice t1 k v m f) f).value = some v := by
  rw [insertSplice_node_f t1 k v m f hfm hf]
  exact ⟨rfl, rfl⟩

theorem insertRelocate_node_f (t1 : Table V) (k : Key) (v : V) (m f lp : Nat)
    (hf : f < t1.hseg.length) (hfm : f ≠ m) :
    (getNode (insertRelocate t1 k v m f lp) f).key = (getNode t1 lp).key ∧
    (getNode (insertRelocate t1 k v m f lp) f).value = (getNode t1 lp).value := by
  rw [insertRelocate]
  rw [show (getNode (setNode (setNext (setNext (setNode t1 f
      ⟨(getNode t1 lp).key, (getNode t1 lp).value, none, none⟩) f
      (getNode (setNode t1 f ⟨(getNode t1 lp).key, (getNode t1 lp).value, none, none⟩) m).next)
      lp (some f)) m ⟨some k, some v, none, none⟩) f)
      = (getNode (setNext (setNext (setNode t1 f
      ⟨(getNode t1 lp).key, (getNode t1 lp).value, none, none⟩) f
      (getNode (setNode t1 f ⟨(getNode t1 lp).key, (getNode t1 lp).value, none, none⟩) m).next)
      lp (some f)) f)
    from getNode_setNode_ne _ _ (Ne.symm hfm)]
  constructor
  · rw [key_setNext, key_setNext]
    rw [show (getNode (setNode t1 f
        ⟨(getNode t1 lp).key, (getNode t1 lp).value, none, none⟩) f)
        = ⟨(getNode t1 lp).key, (getNode t1 lp).value, none, none⟩
      from getNode_setNode_self _ _ _ hf]
  · rw [value_setNext, value_setNext]
    rw [show (getNode (setNode t1 f
        ⟨(getNode t1 lp).key, (getNode t1 lp).value, none, none⟩) f)
        = ⟨(getNode t1 lp).key, (getNode t1 lp).value, none, none⟩
      from getNode_setNode_self _ _ _ hf]

/-- A successful free-slot search preserves keys, values and chain links,
and returns an empty slot, with no well-formedness assumption. -/
theorem getFreePos_core_facts (t : Table V) (f : Nat) (t1 : Table V)
    (h : getFreePos t = (some f, t1)) :
    coreEq t t1 ∧ (getNode t1 f).value.isNone = true := by
  rw [getFreePos] at h
  rcases hp : pruneVac t (t.hseg.length + 1) with ⟨r, t'⟩
  rw [hp] at h
  have hcore' : coreEq t t' := by
    have := (pruneVac_core (t.hseg.length + 1) t).1
    rwa [hp] at this
  cases r with
  | some j =>
    simp only at h
    have hj : f = j := by
      have := congrArg Prod.fst h
      simpa using this.symm
    have ht1 : t1 = t' := (congrArg Prod.snd h).symm
    subst hj
    subst ht1
    obtain ⟨hempty, _⟩ := pruneVac_some_facts (t.hseg.length + 1) t f t1 hp
    exact ⟨hcore', hempty⟩
  | none =>
    simp only at h
    cases hs : scanFree t'.hseg t'.lastFree with
    | some f' =>
      rw [hs] at h
      have hf : f = f' := by
        have := congrArg Prod.fst h
        simpa using this.symm
      have ht1 : t1 = { t' with lastFree := f' } := (congrArg Prod.snd h).symm
      subst hf
      obtain ⟨_, h2, _⟩ := scanFree_some_facts t'.hseg t'.lastFree f hs
      have hcore1 : coreEq t t1 := by
        rw [ht1]
        exact coreEq_trans hcore' ⟨rfl, rfl, rfl, rfl, fun j => ⟨rfl, rfl, rfl⟩⟩
      refine ⟨hcore1, ?_⟩
      have hg : getNode t1 f = getNode t' f := by
        rw [ht1]
        rfl
      rw [hg]
      exact h2
    | none =>
      rw [hs] at h
      cases h

/-- Out-of-range reads yield the default (empty) node. -/
theorem getNode_oob (t : Table V) {j : Nat} (h : t.hseg.length ≤ j) :
    getNode t j = default := by
  rw [getNode, List.getD_eq_default _ _ h]

/-- The exclusivity invariant transfers along `coreEq`. -/
theorem intInvariant_coreEq (t t' : Table V) (hc : coreEq t t')
    (h : intInvariant t) : intInvariant t' := by
  obtain ⟨ha, _, _, hlen, hnode⟩ := hc
  intro j hj hv
  have hsz : t'.arraySize = t.arraySize := by
    show 2 ^ t'.arrLog2 = 2 ^ t.arrLog2
    rw [ha]
  rw [hsz, (hnode j).1]
  refine h j ?_ ?_
  · rwa [hlen] at hj
  · rwa [(hnode j).2.1] at hv

/-- A successful `insert` attempt preserves the exclusivity invariant. -/
theorem intInvariant_insertNR_some (t : Table V) (k : Key) (v : V) (t2 : Table V)
    (hres : insertNR t k v = some t2) (h : intInvariant t) : intInvariant t2 := by
  rw [insertNR] at hres
  by_cases hArr : inArrRange k t.arraySize = true
  · rw [if_pos hArr] at hres
    have ht2 : t2 = { t with arr := t.arr.set (arrIdx k) (some v) } := by
      cases hres
      rfl
    subst ht2
    exact fun j hj hv => h j hj hv
  · rw [if_neg hArr] at hres
    have hguard := keyOutsideArr_of_guard k t.arraySize (by
      cases hg : inArrRange k t.arraySize with
      | false => rfl
      | true => exact absurd hg hArr)
    by_cases hHead : ((getNode t (mainIdx t k)).value.isNone ||
        keyEqO (getNode t (mainIdx t k)).key k) = true
    · rw [if_pos hHead] at hres
      have ht2 : t2 = setNode t (mainIdx t k) ⟨some k, some v, none, none⟩ := by
        cases hres
        rfl
      subst ht2
      intro j hj hv
      have hsz : (setNode t (mainIdx t k) ⟨some k, some v, none, none⟩).arraySize
          = t.arraySize := rfl
      rw [hsz]
      by_cases hjm : mainIdx t k = j
      · subst hjm
        rcases Nat.lt_or_ge (mainIdx t k) t.hseg.length with hl | hl
        · rw [getNode_setNode_self _ _ _ hl]
          exact hguard
        · rw [getNode_setNode_oob t ⟨some k, some v, none, none⟩ hl]
          exact h (mainIdx t k) (by rwa [setNode_hseg_length] at hj)
            (by rwa [getNode_setNode_oob t ⟨some k, some v, none, none⟩ hl] at hv)
      · rw [getNode_setNode_ne _ _ hjm]
        rw [getNode_setNode_ne _ _ hjm] at hv
        exact h j (by rwa [setNode_hseg_length] at hj) hv
    · rw [if_neg hHead] at hres
      rcases hfp : getFreePos t with ⟨r, t1⟩
      rw [hfp] at hres
      cases r with
      | none => cases hres
      | some f =>
        simp only at hres
        obtain ⟨hcore, hfempty⟩ := getFreePos_core_facts t f t1 hfp
        have h1 : intInvariant t1 := intInvariant_coreEq t t1 hcore h
        have hsz1 : t1.arraySize = t.arraySize := by
          show 2 ^ t1.arrLog2 = 2 ^ t.arrLog2
          rw [hcore.1]
        have hmval : (getNode t1 (mainIdx t k)).value.isSome = true := by
          rw [(hcore.2.2.2.2 (mainIdx t k)).2.1]
          cases hval : (getNode t (mainIdx t k)).value with
          | none =>
            exfalso
            refine hHead ?_
            rw [hval]
            rfl
          | some w => rfl
        have hfm : f ≠ mainIdx t k := by
          intro hEq
          rw [hEq] at hfempty
          cases hval2 : (getNode t1 (mainIdx t k)).value with
          | none =>
            rw [hval2] at hmval
            cases hmval
          | some w =>
            rw [hval2] at hfempty
            cases hfempty
        by_cases hOcc : occMain t1 (mainIdx t k) = mainIdx t k
        · rw [if_pos hOcc] at hres
          have ht2 : t2 = insertSplice t1 k v (mainIdx t k) f := by
            cases hres
            rfl
          subst ht2
          intro j hj hv
          rw [insertSplice_hseg_length] at hj
          have hsz2 : (insertSplice t1 k v (mainIdx t k) f).arraySize = t.arraySize := by
            show 2 ^ (insertSplice t1 k v (mainIdx t k) f).arrLog2 = _
            rw [show (insertSplice t1 k v (mainIdx t k) f).arrLog2 = t1.arrLog2 from by
              simp [insertSplice, setNext, setNode]]
            exact hsz1
          rw [hsz2]
          by_cases hjf : j = f
          · subst hjf
            rw [(insertSplice_node_f t1 k v (mainIdx t k) j hfm hj)]
            exact hguard
          · rw [insertSplice_key_at _ _ _ _ _ _ hjf]
            rw [insertSplice_value_at _ _ _ _ _ _ hjf] at hv
            rw [← hsz1]
            exact h1 j hj hv
        · rw [if_neg hOcc] at hres
          cases hlp : findPred t1 (mainIdx t k) (t1.hseg.length + 1)
              (some (occMain t1 (mainIdx t k))) none with
          | none =>
            rw [hlp] at hres
            have ht2 : t2 = t1 := by
              cases hres
              rfl
            subst ht2
            exact h1
          | some lp =>
            rw [hlp] at hres
            have ht2 : t2 = insertRelocate t1 k v (mainIdx t k) f lp := by
              cases hres
              rfl
            subst ht2
            intro j hj hv
            rw [insertRelocate_hseg_length] at hj
            have hsz2 : (insertRelocate t1 k v (mainIdx t k) f lp).arraySize
                = t.arraySize := by
              show 2 ^ (insertRelocate t1 k v (mainIdx t k) f lp).arrLog2 = _
              rw [show (insertRelocate t1 k v (mainIdx t k) f lp).arrLog2 = t1.arrLog2
                from by simp [insertRelocate, setNext, setNode]]
              exact hsz1
            rw [hsz2]
            by_cases hjm : j = mainIdx t k
            · subst hjm
              rw [insertRelocate_node_m t1 k v _ f lp hj]
              exact hguard
            · by_cases hjf : j = f
              · subst hjf
                rw [(insertRelocate_node_f t1 k v (mainIdx t k) j lp hj hfm).1]
                rw [(insertRelocate_node_f t1 k v (mainIdx t k) j lp hj hfm).2] at hv
                rcases Nat.lt_or_ge lp t1.hseg.length with hlpl | hlpl
                · rw [← hsz1]
                  exact h1 lp hlpl hv
                · rw [getNode_oob t1 hlpl] at hv
                  cases hv
              · rw [insertRelocate_key_at _ _ _ _ _ _ _ hjf hjm]
                rw [insertRelocate_value_at _ _ _ _ _ _ _ hjf hjm] at hv
                rw [← hsz1]
                exact h1 j hj hv

theorem freeNode_hseg_length (t : Table V) (j : Nat) :
    (freeNode t j).hseg.length = t.hseg.length := by
  simp [freeNode]

theorem getNode_freeNode_self (t : Table V) (j : Nat) (h : j < t.hseg.length) :
    getNode (freeNode t j) j = ⟨none, none, none, t.vacancy⟩ := by
  show (t.hseg.set j _).getD j default = _
  exact getD_set_self _ _ _ _ h

theorem getNode_freeNode_ne (t : Table V) {j a : Nat} (h : j ≠ a) :
    getNode (freeNode t j) a = getNode t a := by
  show (t.hseg.set j _).getD a default = t.hseg.getD a default
  exact getD_set_ne _ _ _ h

theorem getNode_freeNode_oob (t : Table V) {j : Nat} (h : t.hseg.length ≤ j) (a : Nat) :
    getNode (freeNode t j) a = getNode t a := by
  show (t.hseg.set j _).getD a default = t.hseg.getD a default
  rw [List.set_eq_of_length_le h]

theorem intInvariant_arrSet (t : Table V) (l : List (Option V)) (h : intInvariant t) :
    intInvariant { t with arr := l } :=
  fun j hj hv => h j hj hv

theorem intInvariant_freeNode (t : Table V) (j : Nat) (h : intInvariant t) :
    intInvariant (freeNode t j) := by
  intro a ha hv
  rw [freeNode_hseg_length] at ha
  by_cases hja : j = a
  · subst hja
    rcases Nat.lt_or_ge j t.hseg.length with hl | hl
    · rw [getNode_freeNode_self t j hl] at hv
      cases hv
    · rw [getNode_freeNode_oob t hl] at hv ⊢
      exact h j ha hv
  · rw [getNode_freeNode_ne t hja] at hv ⊢
    exact h a ha hv

/-- Overwriting a slot with a node that keeps its key and value fields
preserves the exclusivity invariant. -/
theorem intInvariant_setNode_keepkv (t : Table V) (j : Nat) (nd : Node V)
    (hk : nd.key = (getNode t j).key) (hv : nd.value = (getNode t j).value)
    (h : intInvariant t) : intInvariant (setNode t j nd) := by
  intro a ha hval
  rw [setNode_hseg_length] at ha
  rw [key_setNode_keep t j nd hk]
  rw [value_setNode_keep t j nd hv] at hval
  exact h a ha hval

/-- Copying the contents of slot `j2` into slot `j` preserves the
exclusivity invariant. -/
theorem intInvariant_setNode_copy (t : Table V) (j j2 : Nat) (h : intInvariant t) :
    intInvariant (setNode t j (getNode t j2)) := by
  intro a ha hval
  rw [setNode_hseg_length] at ha
  by_cases hja : j = a
  · subst hja
    rcases Nat.lt_or_ge j t.hseg.length with hl | hl
    · rw [getNode_setNode_self _ _ _ hl] at hval ⊢
      rcases Nat.lt_or_ge j2 t.hseg.length with hl2 | hl2
      · exact h j2 hl2 hval
      · rw [getNode_oob t hl2] at hval
        cases hval
    · rw [getNode_setNode_oob t _ hl] at hval ⊢
      exact h j ha hval
  · rw [getNode_setNode_ne _ _ hja] at hval ⊢
    exact h a ha hval

theorem intInvariant_eraseK (t : Table V) (k : Key) (h : intInvariant t) :
    intInvariant (eraseK t k) := by
  rw [eraseK]
  by_cases hg : inArrRange k t.arraySize = true
  · rw [if_pos hg]
    exact fun j hj hv => h j hj hv
  · rw [if_neg hg]
    rcases hw : eraseGo t k (t.hseg.length + 1) (some (mainIdx t k)) none with ⟨r, last⟩
    cases r with
    | none => exact h
    | some j =>
      dsimp only
      cases hn : (getNode t j).next with
      | none =>
        cases last with
        | none => exact intInvariant_freeNode t j h
        | some l =>
          exact intInvariant_freeNode _ j (intInvariant_setNode_keepkv t l _ rfl rfl h)
      | some j2 =>
        cases last with
        | none => exact intInvariant_freeNode _ j2 (intInvariant_setNode_copy t j j2 h)
        | some l =>
          exact intInvariant_freeNode _ j (intInvariant_setNode_keepkv t l _ rfl rfl h)

theorem intInvariant_insertB (t : Table V) (k : Key) (v : V) (h : intInvariant t) :
    intInvariant (insertB t k v) := by
  rw [insertB]
  cases hres : insertNR t k v with
  | none => exact h
  | some t2 => exact intInvariant_insertNR_some t k v t2 hres h

theorem intInvariant_mkTable (aLog hLog : Nat) : intInvariant (mkTable V aLog hLog) := by
  intro j hj hv
  exfalso
  have : getNode (mkTable V aLog hLog) j = default := getD_replicate_default _ _
  rw [this] at hv
  cases hv

/-- Any fold whose step preserves the exclusivity invariant preserves it. -/
theorem foldl_pres_inv {β : Type} (g : Table V → β → Table V)
    (hstep : ∀ t x, intInvariant t → intInvariant (g t x)) :
    ∀ (l : List β) (t : Table V), intInvariant t → intInvariant (l.foldl g t) := by
  intro l
  induction l with
  | nil => intro t h; exact h
  | cons x xs ih => intro t h; exact ih (g t x) (hstep t x h)

theorem intInvariant_resize (t : Table V) (a b : Nat) : intInvariant (resize t a b) := by
  rw [resize]
  refine foldl_pres_inv _ ?_ _ _ ?_
  · intro ft j hft
    show intInvariant (match (getNode t j).value with
      | none => ft
      | some v =>
        match (getNode t j).key with
        | none => ft
        | some (Key.KInt x) =>
          if x < ((2:Int) ^ a) then
            if 0 ≤ x then { ft with arr := ft.arr.set x.toNat (some v) }
            else ft
          else insertB ft (Key.KInt x) v
        | some kk => insertB ft kk v)
    cases (getNode t j).value with
    | none => exact hft
    | some v =>
      cases (getNode t j).key with
      | none => exact hft
      | some kk =>
        cases kk with
        | KInt x =>
          dsimp only
          by_cases hx : x < ((2:Int) ^ a)
          · rw [if_pos hx]
            by_cases h0 : (0:Int) ≤ x
            · rw [if_pos h0]
              exact intInvariant_arrSet ft _ hft
            · rw [if_neg h0]
              exact hft
          · rw [if_neg hx]
            exact intInvariant_insertB ft _ v hft
        | KNum n => exact intInvariant_insertB ft _ v hft
        | KStr s2 => exact intInvariant_insertB ft _ v hft
        | KPtr p => exact intInvariant_insertB ft _ v hft
        | KH p c => exact intInvariant_insertB ft _ v hft
  · refine foldl_pres_inv _ ?_ _ _ ?_
    · intro ft i hft
      show intInvariant (match t.arr.getD i none with
        | some v => insertB ft (Key.KInt (i : Int)) v
        | none => ft)
      cases t.arr.getD i none with
      | none => exact hft
      | some v => exact intInvariant_insertB ft _ v hft
    · exact intInvariant_arrSet _ _ (intInvariant_mkTable a b)

theorem intInvariant_recomputeSize (t : Table V) : intInvariant (recomputeSize t) := by
  rw [recomputeSize]
  exact intInvariant_resize t _ _

theorem intInvariant_insertK (t : Table V) (k : Key) (v : V) (h : intInvariant t) :
    intInvariant (insertK t k v) := by
  rw [insertK]
  cases hres : insertNR t k v with
  | some t2 => exact intInvariant_insertNR_some t k v t2 hres h
  | none =>
    show intInvariant ((insertNR (recomputeSize t) k v).getD (recomputeSize t))
    cases hres2 : insertNR (recomputeSize t) k v with
    | none => exact intInvariant_recomputeSize t
    | some t2 => exact intInvariant_insertNR_some _ k v t2 hres2 (intInvariant_recomputeSize t)

/-! ### NaN keys: never equal, hence never found -/

theorem keyEq_nan_right (kk : Key) : keyEq kk (Key.KNum NumV.nan) = false := by
  cases kk with
  | KNum a => cases a <;> rfl
  | KInt i => rfl
  | KStr s => rfl
  | KPtr p => rfl
  | KH p c => rfl

theorem keyEq_nan_left (kk : Key) : keyEq (Key.KNum NumV.nan) kk = false := by
  cases kk with
  | KNum a => cases a <;> rfl
  | KInt i => rfl
  | KStr s => rfl
  | KPtr p => rfl
  | KH p c => rfl

theorem keyEqO_nan (ok : Option Key) : keyEqO ok (Key.KNum NumV.nan) = false := by
  cases ok with
  | none => rfl
  | some kk => exact keyEq_nan_right kk

theorem queryGo_nan (t : Table V) :
    ∀ (fuel : Nat) (p : Option Nat), queryGo t (Key.KNum NumV.nan) fuel p = none := by
  intro fuel
  induction fuel with
  | zero => intro p; rfl
  | succ n ih =>
    intro p
    cases p with
    | none => rfl
    | some j =>
      rw [queryGo]
      cases (getNode t j).value with
      | none => rfl
      | some v =>
        rw [keyEqO_nan]
        simp only [if_false]
        exact ih (getNode t j).next

/-- A NaN `Number` key is never found: `query` returns null on any table. -/
theorem queryK_nan (t : Table V) : queryK t (Key.KNum NumV.nan) = none := by
  rw [queryK]
  rw [if_neg (by rw [show inArrRange (Key.KNum NumV.nan) t.arraySize = false from rfl]; exact Bool.false_ne_true)]
  exact queryGo_nan t _ _

/-- If the erase walk stops at a slot while looking for a NaN key, that
slot is empty (the key-match exit is impossible). -/
theorem eraseGo_nan_terminal (t : Table V) :
    ∀ (fuel : Nat) (p l : Option Nat) (j : Nat) (l' : Option Nat),
    eraseGo t (Key.KNum NumV.nan) fuel p l = (some j, l') →
    (getNode t j).value.isNone = true := by
  intro fuel
  induction fuel with
  | zero =>
    intro p l j l' h
    cases h
  | succ n ih =>
    intro p l j l' h
    cases p with
    | none => cases h
    | some j0 =>
      rw [eraseGo] at h
      by_cases hv : (getNode t j0).value.isNone = true
      · rw [if_pos hv] at h
        cases h
        exact hv
      · rw [if_neg hv, keyEqO_nan, if_neg Bool.false_ne_true] at h
        exact ih _ _ _ _ h

theorem occH_freeNode_of_none (t : Table V) (j : Nat)
    (h : (getNode t j).value.isNone = true) : occH (freeNode t j) = occH t := by
  refine countP_set_eq_of _ _ _ default _ ?_
  show ((⟨none, none, none, t.vacancy⟩ : Node V).value.isSome) = (getNode t j).value.isSome
  cases hval : (getNode t j).value with
  | none => rfl
  | some w =>
    rw [hval] at h
    cases h

/-- Occupancy bookkeeping for a single slot overwrite. -/
theorem occH_set_bal (t : Table V) (j : Nat) (nd : Node V) (hj : j < t.hseg.length) :
    occH (setNode t j nd) + (if (getNode t j).value.isSome then 1 else 0)
      = occH t + (if nd.value.isSome then 1 else 0) :=
  countP_set_bal t.hseg j nd default (fun nd => nd.value.isSome) hj

/-- Occupancy bookkeeping for `Table::free` on an in-range slot. -/
theorem occH_freeNode_bal (t : Table V) (j : Nat) (hj : j < t.hseg.length) :
    occH (freeNode t j) + (if (getNode t j).value.isSome then 1 else 0) = occH t + 0 :=
  countP_set_bal t.hseg j ({ key := none, value := none, next := none, vnext := t.vacancy } : Node V)
    default (fun nd => nd.value.isSome) hj

/-- Erasing a NaN key never removes an entry: the live count is
unchanged. -/
theorem countLive_eraseK_nan (t : Table V) :
    countLive (eraseK t (Key.KNum NumV.nan)) = countLive t := by
  rw [eraseK]
  rw [if_neg (by rw [show inArrRange (Key.KNum NumV.nan) t.arraySize = false from rfl]; exact Bool.false_ne_true)]
  rcases hw : eraseGo t (Key.KNum NumV.nan) (t.hseg.length + 1) (some (mainIdx t (Key.KNum NumV.nan))) none with ⟨r, last⟩
  cases r with
  | none => rfl
  | some j =>
    have hterm := eraseGo_nan_terminal t _ _ _ _ _ hw
    dsimp only
    cases hn : (getNode t j).next with
    | none =>
      cases last with
      | none =>
        show (freeNode t j).arr.countP _ + occH (freeNode t j) = _
        rw [occH_freeNode_of_none t j hterm]
        rfl
      | some l =>
        show (freeNode (setNode t l _) j).arr.countP _ + occH (freeNode (setNode t l _) j) = _
        rw [show occH (freeNode (setNode t l { key := (getNode t l).key, value := (getNode t l).value, next := none, vnext := (getNode t l).vnext }) j) = occH (setNode t l { key := (getNode t l).key, value := (getNode t l).value, next := none, vnext := (getNode t l).vnext }) from occH_freeNode_of_none _ j (by
          rw [value_setNode_keep t l { key := (getNode t l).key, value := (getNode t l).value, next := none, vnext := (getNode t l).vnext } rfl j]
          exact hterm)]
        rw [occH_setNode_keep t l { key := (getNode t l).key, value := (getNode t l).value, next := none, vnext := (getNode t l).vnext } rfl]
        rfl
    | some j2 =>
      cases last with
      | none =>
        have hjlen : j < t.hseg.length := by
          by_contra hge
          rw [getNode_oob t (Nat.le_of_not_lt hge)] at hn
          cases hn
        have hold : (getNode t j).value.isSome = false := by
          cases hval : (getNode t j).value with
          | none => rfl
          | some w =>
            rw [hval] at hterm
            cases hterm
        have h1 := occH_set_bal t j (getNode t j2) hjlen
        rw [hold, if_neg Bool.false_ne_true] at h1
        have hv12 : (getNode (setNode t j (getNode t j2)) j2).value = (getNode t j2).value := by
          by_cases hjj : j = j2
          · subst hjj
            rw [getNode_setNode_self t j _ hjlen]
          · rw [getNode_setNode_ne t _ hjj]
        rcases Nat.lt_or_ge j2 t.hseg.length with hl2 | hl2
        · have h2 := occH_freeNode_bal (setNode t j (getNode t j2)) j2
            (by rw [setNode_hseg_length]; exact hl2)
          rw [hv12] at h2
          show t.arr.countP (fun x => x.isSome) + occH (freeNode (setNode t j (getNode t j2)) j2)
            = t.arr.countP (fun x => x.isSome) + occH t
          omega
        · have h2 : occH (freeNode (setNode t j (getNode t j2)) j2)
              = occH (setNode t j (getNode t j2)) := by
            show ((setNode t j (getNode t j2)).hseg.set j2 _).countP _ = _
            rw [List.set_eq_of_length_le (by rw [setNode_hseg_length]; exact hl2)]
            rfl
          have hd : (getNode t j2).value.isSome = false := by
            rw [getNode_oob t hl2]
            rfl
          rw [hd, if_neg Bool.false_ne_true] at h1
          show t.arr.countP (fun x => x.isSome) + occH (freeNode (setNode t j (getNode t j2)) j2)
            = t.arr.countP (fun x => x.isSome) + occH t
          omega
      | some l =>
        show (freeNode (setNode t l _) j).arr.countP _ + occH (freeNode (setNode t l _) j) = _
        rw [show occH (freeNode (setNode t l { key := (getNode t l).key, value := (getNode t l).value, next := some j2, vnext := (getNode t l).vnext }) j) = occH (setNode t l { key := (getNode t l).key, value := (getNode t l).value, next := some j2, vnext := (getNode t l).vnext }) from occH_freeNode_of_none _ j (by
          rw [value_setNode_keep t l { key := (getNode t l).key, value := (getNode t l).value, next := some j2, vnext := (getNode t l).vnext } rfl j]
          exact hterm)]
        rw [occH_setNode_keep t l { key := (getNode t l).key, value := (getNode t l).value, next := some j2, vnext := (getNode t l).vnext } rfl]
        rfl

/-! ### Erase of an absent key -/

/-- The target of a chain link, when present, is an in-range occupied
slot. -/
def nextOK (t : Table V) (o : Option Nat) : Prop :=
  match o with
  | none => True
  | some j' => j' < t.hseg.length ∧ (getNode t j').value.isSome = true

instance (t : Table V) (o : Option Nat) : Decidable (nextOK t o) := by
  cases o with
  | none => exact isTrue trivial
  | some j' => exact inferInstanceAs (Decidable (_ ∧ _))

/-- Chain links of occupied slots point at in-range occupied slots. -/
def chainOK (t : Table V) : Prop :=
  ∀ j, j < t.hseg.length → (getNode t j).value.isSome = true → nextOK t (getNode t j).next

instance (t : Table V) : Decidable (chainOK t) := by
  unfold chainOK
  exact Nat.decidableBallLT _ _

/-- Empty slots carry no key and no chain link. -/
def emptyClean (t : Table V) : Prop :=
  ∀ j, j < t.hseg.length → (getNode t j).value.isSome = false →
    (getNode t j).next = none ∧ (getNode t j).key = none

instance (t : Table V) : Decidable (emptyClean t) := by
  unfold emptyClean
  exact Nat.decidableBallLT _ _

theorem eraseGo_none_ptr (t : Table V) (k : Key) :
    ∀ (fuel : Nat) (l : Option Nat), eraseGo t k fuel none l = (none, l) := by
  intro fuel l
  cases fuel with
  | zero => rfl
  | succ n => rfl

/-- If the query walk from an occupied slot misses, the erase walk from the
same slot reports no match. -/
theorem eraseGo_miss (t : Table V) (k : Key) (hchain : chainOK t) :
    ∀ (fuel : Nat) (j : Nat) (l : Option Nat), j < t.hseg.length →
    (getNode t j).value.isSome = true →
    queryGo t k fuel (some j) = none →
    ∃ l', eraseGo t k fuel (some j) l = (none, l') := by
  intro fuel
  induction fuel with
  | zero =>
    intro j l _ _ _
    exact ⟨l, rfl⟩
  | succ n ih =>
    intro j l hj hv hq
    rw [queryGo] at hq
    cases hval : (getNode t j).value with
    | none =>
      rw [hval] at hv
      cases hv
    | some v =>
      rw [hval] at hq
      dsimp only at hq
      cases hko : keyEqO (getNode t j).key k with
      | true =>
        rw [hko, if_pos rfl] at hq
        cases hq
      | false =>
        rw [hko, if_neg Bool.false_ne_true] at hq
        rw [eraseGo]
        rw [if_neg (by rw [hval]; exact Bool.false_ne_true)]
        rw [hko, if_neg Bool.false_ne_true]
        cases hnx : (getNode t j).next with
        | none =>
          rw [eraseGo_none_ptr]
          exact ⟨some j, rfl⟩
        | some j' =>
          have hok := hchain j hj hv
          rw [hnx] at hok
          rw [hnx] at hq
          exact ih j' (some j) hok.1 hok.2 hq

theorem set_none_id {α : Type u} :
    ∀ (l : List (Option α)) (i : Nat), l.getD i none = none → l.set i none = l := by
  intro l
  induction l with
  | nil => intro i _; rfl
  | cons x xs ih =>
    intro i h
    cases i with
    | zero =>
      rw [List.getD_cons_zero] at h
      rw [List.set_cons_zero, h]
    | succ n =>
      rw [List.getD_cons_succ] at h
      rw [List.set_cons_succ, ih n h]

/-- Erasing an absent key (on a table whose chains are well formed and
whose empty slots are clean) leaves the sizes, the array, `last_free`, and
every slot's key, value and chain link unchanged; only free-list
bookkeeping may differ. -/
theorem eraseK_miss (t : Table V) (k : Key) (hwf : wfLite t) (hchain : chainOK t)
    (hclean : emptyClean t) (habs : queryK t k = none) :
    coreEq t (eraseK t k) ∧ (eraseK t k).lastFree = t.lastFree := by
  obtain ⟨hal, hhl, hlog, hlf, hhead, hlinks⟩ := hwf
  rw [eraseK]
  by_cases hg : inArrRange k t.arraySize = true
  · rw [if_pos hg]
    rw [queryK, if_pos hg] at habs
    have harr : t.arr.set (arrIdx k) none = t.arr := set_none_id t.arr (arrIdx k) habs
    rw [harr]
    exact ⟨coreEq_refl t, rfl⟩
  · rw [if_neg hg]
    have hm : mainIdx t k < t.hseg.length := by
      rw [hhl]
      exact mainIdx_lt t k
    rw [queryK, if_neg hg] at habs
    cases hmv : (getNode t (mainIdx t k)).value.isSome with
    | false =>
      have hstep : eraseGo t k (t.hseg.length + 1) (some (mainIdx t k)) none
          = (some (mainIdx t k), none) := by
        rw [eraseGo]
        rw [if_pos (by
          cases hval : (getNode t (mainIdx t k)).value with
          | none => rfl
          | some w =>
            rw [hval] at hmv
            cases hmv)]
      rw [hstep]
      dsimp only
      obtain ⟨hnx, hky⟩ := hclean (mainIdx t k) hm hmv
      rw [hnx]
      dsimp only
      have hvalnone : (getNode t (mainIdx t k)).value = none := by
        cases hval : (getNode t (mainIdx t k)).value with
        | none => rfl
        | some w =>
          rw [hval] at hmv
          cases hmv
      refine ⟨⟨rfl, rfl, rfl, freeNode_hseg_length t _, ?_⟩, rfl⟩
      intro a
      by_cases ham : mainIdx t k = a
      · subst ham
        rw [getNode_freeNode_self t _ hm, hky, hvalnone, hnx]
        exact ⟨rfl, rfl, rfl⟩
      · rw [getNode_freeNode_ne t ham]
        exact ⟨rfl, rfl, rfl⟩
    | true =>
      obtain ⟨l', hl'⟩ := eraseGo_miss t k hchain (t.hseg.length + 1) (mainIdx t k) none hm hmv habs
      rw [hl']
      exact ⟨coreEq_refl t, rfl⟩

/-! ### Hash caching -/

/-- A cache-consistent `H` key hashes to the registered hash of its
payload, whether or not the cache is set. -/
theorem keyHashC_KH (p : Int) (c : Nat) (h : c = 0 ∨ c = intHash p) :
    (keyHashC (Key.KH p c)).1 = intHash p := by
  rw [keyHashC]
  by_cases hc : c ≠ 0
  · rw [if_pos hc]
    rcases h with h0 | hv
    · exact absurd h0 hc
    · exact hv
  · rw [if_neg hc]

/-- `get_hash` is idempotent: hashing the key returned by a first call
reads the (now set or still computed-equal) cache and yields the same
hash. -/
theorem keyHashC_idem (k : Key) : (keyHashC (keyHashC k).2).1 = (keyHashC k).1 := by
  cases k with
  | KH p c =>
    by_cases hc : c ≠ 0
    · rw [keyHashC, if_pos hc, keyHashC, if_pos hc]
    · rw [keyHashC, if_neg hc]
      show (keyHashC (Key.KH p (intHash p))).1 = intHash p
      by_cases hip : intHash p ≠ 0
      · rw [keyHashC, if_pos hip]
      · rw [keyHashC, if_neg hip]
  | KInt i => rfl
  | KNum n => rfl
  | KStr s => rfl
  | KPtr q => rfl

/-- Keys that compare equal under cache-consistent caches hash equal. -/
theorem keyHashC_congr (k1 k2 : Key) (h1 : cacheOK k1) (h2 : cacheOK k2)
    (heq : keyEq k1 k2 = true) : (keyHashC k1).1 = (keyHashC k2).1 := by
  cases k1 with
  | KInt a =>
    cases k2 with
    | KInt b =>
      have hab : a = b := by
        have : (a == b) = true := heq
        exact eq_of_beq this
      rw [hab]
    | KNum n => cases heq
    | KStr s => cases heq
    | KPtr q => cases heq
    | KH p c => cases heq
  | KNum a =>
    cases k2 with
    | KInt b => cases heq
    | KNum b =>
      have hab : a = b := by
        cases a with
        | nan =>
          rw [keyEq_nan_left] at heq
          cases heq
        | inf s =>
          cases b with
          | nan => cases heq
          | inf s2 =>
            have : (s == s2) = true := heq
            rw [eq_of_beq this]
          | fin r => cases heq
        | fin q =>
          cases b with
          | nan => cases heq
          | inf s2 => cases heq
          | fin r =>
            have : (q == r) = true := heq
            rw [eq_of_beq this]
      rw [hab]
    | KStr s => cases heq
    | KPtr q => cases heq
    | KH p c => cases heq
  | KStr a =>
    cases k2 with
    | KInt b => cases heq
    | KNum n => cases heq
    | KStr b =>
      have hab : a = b := by
        have : (a == b) = true := heq
        exact eq_of_beq this
      rw [hab]
    | KPtr q => cases heq
    | KH p c => cases heq
  | KPtr a =>
    cases k2 with
    | KInt b => cases heq
    | KNum n => cases heq
    | KStr s => cases heq
    | KPtr b =>
      have hab : a = b := by
        have : (a == b) = true := heq
        exact eq_of_beq this
      rw [hab]
    | KH p c => cases heq
  | KH p1 c1 =>
    cases k2 with
    | KInt b => cases heq
    | KNum n => cases heq
    | KStr s => cases heq
    | KPtr q => cases heq
    | KH p2 c2 =>
      have hp : p1 = p2 := by
        have : (p1 == p2) = true := heq
        exact eq_of_beq this
      rw [keyHashC_KH p1 c1 h1, keyHashC_KH p2 c2 h2, hp]

/-! ### Concrete scenario fixtures -/

/-- A table state reachable by inserts: slot 0 holds `-1 ↦ 10` chained to
slot 1 holding `-5 ↦ 11` (slot 1 is not the main position of `-5`; both
keys hash to main position 0 in a 4-slot segment). -/
def chainState : Table Nat :=
  { arrLog2 := 0, hashLog2 := 2, arr := [none],
    hseg := ([⟨some (Key.KInt (-1)), some 10, some 1, none⟩,
              ⟨some (Key.KInt (-5)), some 11, none, none⟩, default, default]),
    vacancy := none, lastFree := 3 }

/-- A table with a single live entry `1 ↦ 5` in hash slot 1 (array size 1,
so the integer key 1 lives in the hash segment). -/
def oneEntryState : Table Nat :=
  { arrLog2 := 0, hashLog2 := 1, arr := [none],
    hseg := ([default, ⟨some (Key.KInt 1), some 5, none, none⟩]),
    vacancy := none, lastFree := 1 }

/-- Count of live integer keys with value below `b`, exactly as the claim
words it (array-resident keys below `b` plus hash-resident integer keys in
`[0, b)`), with no phantom entry.  Used to compare the claimed size rule
with the code's `chooseArr`. -/
def liveIntBelow (t : Table V) (b : Nat) : Nat :=
  (List.range (min t.arraySize b)).countP (fun i => (t.arr.getD i none).isSome)
  + t.hseg.countP (fun nd => nd.value.isSome &&
      (match nd.key with
       | some (Key.KInt x) => decide (0 ≤ x) && decide (x < (b : Int))
       | _ => false))

/-! ### The claims -/

/-- C1, counterexample: the claim fails for a NaN `Number` key — on an
empty table, `insert(nan, 5)` followed immediately by `query(nan)` (no
intervening erase) returns null, not 5, because IEEE `==` makes the key
unequal to itself. -/
theorem C1_counterexample :
    queryK (insertK (mkTable Nat 0 1) (Key.KNum NumV.nan) 5) (Key.KNum NumV.nan) ≠ some 5 := by
  decide

/-- C1, amended: on a structurally well-formed table, for every key that is
equal to itself under the key model's equality (every key except a NaN
`Number`) and every value, `insert(k, v)` followed immediately by
`query(k)` returns `v`. -/
theorem C1_insert_query (V : Type) (t : Table V) (k : Key) (v : V)
    (hwf : wfLite t) (hk : keyEq k k = true) :
    queryK (insertK t k v) k = some v := by
  rcases insertK_resolve t k v hwf with ⟨t2, h1, h2⟩ | ⟨_, t2, h1, h2⟩
  · rw [h2]
    exact insertNR_query t k v t2 hwf hk h1
  · rw [h2]
    exact insertNR_query (recomputeSize t) k v t2 (recomputeSize_wfLite t hwf) hk h1

/-- C1, witness: the amended claim at a concrete input — inserting `7 ↦ 3`
into the empty table and querying it back. -/
theorem C1_insert_query_witness :
    wfLite (mkTable Nat 0 1) ∧ keyEq (Key.KInt 7) (Key.KInt 7) = true ∧
    queryK (insertK (mkTable Nat 0 1) (Key.KInt 7) 3) (Key.KInt 7) = some 3 :=
  ⟨wfLite_mkTable 0 1 (by omega), by decide,
    C1_insert_query Nat (mkTable Nat 0 1) (Key.KInt 7) 3 (wfLite_mkTable 0 1 (by omega)) (by decide)⟩

/-- C2: the displaced-occupant relocation loses the occupant and
duplicates the predecessor.  On `chainState` (main slot 0 holds `-1 ↦ 10`
chained to `-5 ↦ 11` in slot 1), inserting `-2 ↦ 12` (whose main position
is the occupied slot 1) must relocate the occupant `-5 ↦ 11`; instead,
after the insert `query(-5)` returns null and the key `-1` appears in two
hash slots. -/
theorem C2_relocation_loses_entry :
    queryK chainState (Key.KInt (-5)) = some 11 ∧
    queryK (insertK chainState (Key.KInt (-2)) 12) (Key.KInt (-5)) = none ∧
    (insertK chainState (Key.KInt (-2)) 12).hseg.countP
        (fun nd => nd.key == some (Key.KInt (-1))) = 2 ∧
    queryK (insertK chainState (Key.KInt (-2)) 12) (Key.KInt (-2)) = some 12 := by
  decide

/-- C3: overwriting an equal key at its main-position slot severs the
slot's chain link instead of preserving it.  From the empty table,
`insert(-1, 10); insert(-3, 11)` chains `-3 ↦ 11` after slot 0; the
overwrite `insert(-1, 12)` then makes `query(-3)` return null although the
entry is still stored. -/
theorem C3_overwrite_breaks_chain :
    queryK (insertK (insertK (mkTable Nat 0 1) (Key.KInt (-1)) 10) (Key.KInt (-3)) 11)
        (Key.KInt (-3)) = some 11 ∧
    queryK (insertK (insertK (insertK (mkTable Nat 0 1) (Key.KInt (-1)) 10)
        (Key.KInt (-3)) 11) (Key.KInt (-1)) 12) (Key.KInt (-3)) = none ∧
    queryK (insertK (insertK (insertK (mkTable Nat 0 1) (Key.KInt (-1)) 10)
        (Key.KInt (-3)) 11) (Key.KInt (-1)) 12) (Key.KInt (-1)) = some 12 := by
  decide

/-- C4: no live hash-segment entry ever carries an `Integer` key inside
`[0, array_size)` — the exclusivity invariant is preserved by `insert`,
`erase` and `resize` (and trivially by `query`, which does not change the
table). -/
theorem C4_array_hash_exclusive (V : Type) (t : Table V) (k : Key) (v : V)
    (aLog hLog : Nat) (h : intInvariant t) :
    intInvariant (insertK t k v) ∧ intInvariant (eraseK t k) ∧
    intInvariant (resize t aLog hLog) :=
  ⟨intInvariant_insertK t k v h, intInvariant_eraseK t k h, intInvariant_resize t aLog hLog⟩

/-- C4, witness: the invariant theorem applied to the empty table with a
concrete key, value and resize target. -/
theorem C4_array_hash_exclusive_witness :
    intInvariant (mkTable Nat 0 1) ∧
    (intInvariant (insertK (mkTable Nat 0 1) (Key.KInt 3) 9) ∧
     intInvariant (eraseK (mkTable Nat 0 1) (Key.KInt 3)) ∧
     intInvariant (resize (mkTable Nat 0 1) 2 2)) :=
  ⟨by decide, C4_array_hash_exclusive Nat (mkTable Nat 0 1) (Key.KInt 3) 9 2 2 (by decide)⟩

set_option maxRecDepth 40000 in
/-- C5: the resize triggered by the third insert loses live entries.  After
`insert(-1, 10); insert(-2, 11)` the table holds 2 live entries and
`insert(-3, 12)` finds no free slot, so it runs `recompute_size`; the
rebuilt table holds 0 live entries (both negative keys pass the signed
array-bound comparison and are written out of bounds), and the completed
insert leaves 1 live entry where 3 are expected. -/
theorem C5_resize_loses_entries :
    countLive (insertK (insertK (mkTable Nat 0 1) (Key.KInt (-1)) 10) (Key.KInt (-2)) 11) = 2 ∧
    insertNR (insertK (insertK (mkTable Nat 0 1) (Key.KInt (-1)) 10) (Key.KInt (-2)) 11)
        (Key.KInt (-3)) 12 = none ∧
    countLive (recomputeSize (insertK (insertK (mkTable Nat 0 1) (Key.KInt (-1)) 10)
        (Key.KInt (-2)) 11)) = 0 ∧
    countLive (insertK (insertK (insertK (mkTable Nat 0 1) (Key.KInt (-1)) 10)
        (Key.KInt (-2)) 11) (Key.KInt (-3)) 12) = 1 := by
  decide

/-- C6: an insert attempt that finds no free slot anywhere in the hash
segment triggers exactly one recompute-then-retry pass: the rebuilt table
has a free hash slot, the retried attempt succeeds (no further resize),
and `insert` returns that retry's result. -/
theorem C6_resize_retry_succeeds (V : Type) (t : Table V) (k : Key) (v : V)
    (hwf : wfLite t) (hfail : insertNR t k v = none) :
    (∃ j, j < (recomputeSize t).hseg.length ∧ (getNode (recomputeSize t) j).value = none) ∧
    ∃ t2, insertNR (recomputeSize t) k v = some t2 ∧ insertK t k v = t2 := by
  obtain ⟨hB, hlog, hroom⟩ := recomputeSize_room t hwf
  constructor
  · have hhs : (recomputeSize t).hashSize = 2 ^ (recomputeSize t).hashLog2 := rfl
    have hlt : occH (recomputeSize t) < (recomputeSize t).hseg.length := by
      obtain ⟨_, hhl, _⟩ := hB
      rw [hhl]
      omega
    obtain ⟨j, hj, hnp⟩ := exists_getD_not_of_countP_lt (recomputeSize t).hseg
      (fun nd => nd.value.isSome) default hlt
    refine ⟨j, hj, ?_⟩
    cases hval : ((recomputeSize t).hseg.getD j default).value with
    | none =>
      show ((recomputeSize t).hseg.getD j default).value = none
      exact hval
    | some w =>
      exfalso
      apply hnp
      show ((recomputeSize t).hseg.getD j default).value.isSome = true
      rw [hval]
      rfl
  · rcases insertK_resolve t k v hwf with ⟨t2, h1, _⟩ | ⟨_, t2, h1, h2⟩
    · rw [hfail] at h1
      cases h1
    · exact ⟨t2, h1, h2⟩

/-- C6, witness: the full two-slot table from the C5 scenario; the next
insert fails its first attempt and the recompute-then-retry completes
it. -/
theorem C6_resize_retry_succeeds_witness :
    wfLite (insertK (insertK (mkTable Nat 0 1) (Key.KInt (-1)) 10) (Key.KInt (-2)) 11) ∧
    insertNR (insertK (insertK (mkTable Nat 0 1) (Key.KInt (-1)) 10) (Key.KInt (-2)) 11)
        (Key.KInt (-3)) 12 = none ∧
    ((∃ j, j < (recomputeSize (insertK (insertK (mkTable Nat 0 1) (Key.KInt (-1)) 10)
          (Key.KInt (-2)) 11)).hseg.length ∧
        (getNode (recomputeSize (insertK (insertK (mkTable Nat 0 1) (Key.KInt (-1)) 10)
          (Key.KInt (-2)) 11)) j).value = none) ∧
     ∃ t2, insertNR (recomputeSize (insertK (insertK (mkTable Nat 0 1) (Key.KInt (-1)) 10)
          (Key.KInt (-2)) 11)) (Key.KInt (-3)) 12 = some t2 ∧
       insertK (insertK (insertK (mkTable Nat 0 1) (Key.KInt (-1)) 10) (Key.KInt (-2)) 11)
          (Key.KInt (-3)) 12 = t2) :=
  ⟨(wfLite_iff_check _).mpr (by decide), by decide,
    C6_resize_retry_succeeds Nat _ (Key.KInt (-3)) 12
      ((wfLite_iff_check _).mpr (by decide)) (by decide)⟩

set_option maxRecDepth 40000 in
/-- C7, counterexample: on `oneEntryState` the code chooses array size
`2^1`, yet no `i < 31` satisfies the claimed condition — the count of live
integer keys below `2^(i+1)` never exceeds `2^i` (for `i = 0` the single
key `1` gives count 1, not `> 1`); the code's selection loop seeds its
running total with a phantom entry the claim omits. -/
theorem C7_counterexample :
    (recomputeSize oneEntryState).arrLog2 = 1 ∧
    ∀ i, i < 31 → ¬ (2 ^ i < liveIntBelow oneEntryState (2 ^ (i + 1))) := by
  decide

/-- C7, amended: writing `cnt(b) = 1 + cntLT t b` for the loop's running
total (one phantom entry plus the live integer keys in `[1, b)`), the new
array-size log is `i + 1` for the largest `i < 31` with `2^i < cnt(2^(i+1))`
(0 when no such `i` exists), and the new hash size is the smallest power of
two, at least 2, strictly greater than `hash_part` (the phantom-inflated
total minus the array part), computed as bit-length of the remainder plus
one. -/
theorem C7_size_selection (V : Type) (t : Table V)
    (hlen : t.hseg.length = t.hashSize) :
    ((recomputeSize t).arrLog2 = (chooseArr t).1 ∧
     (recomputeSize t).hashLog2 = max 1 (bitC (hashPartInit t - (chooseArr t).2) + 1)) ∧
    ((chooseArr t = (0, 0) ∧ ∀ i, i < 31 → ¬ (2 ^ i < 1 + cntLT t (2 ^ (i + 1)))) ∨
     (∃ i, i < 31 ∧ chooseArr t = (i + 1, 1 + cntLT t (2 ^ (i + 1))) ∧
       2 ^ i < 1 + cntLT t (2 ^ (i + 1)) ∧
       ∀ i', i < i' → i' < 31 → ¬ (2 ^ i' < 1 + cntLT t (2 ^ (i' + 1))))) ∧
    (1 ≤ hashPartInit t - (chooseArr t).2 ∧
     hashPartInit t - (chooseArr t).2 < (recomputeSize t).hashSize ∧
     2 ≤ (recomputeSize t).hashSize ∧
     ∀ e, 1 ≤ e → hashPartInit t - (chooseArr t).2 < 2 ^ e →
       (recomputeSize t).hashLog2 ≤ e) := by
  obtain ⟨hB, hocc, hA, hH⟩ := resize_build t (chooseArr t).1
    (max 1 (bitC (hashPartInit t - (chooseArr t).2) + 1))
  have hib := items_bound t hlen
  have hhp1 : 1 ≤ hashPartInit t - (chooseArr t).2 := by omega
  have hhl2 : (recomputeSize t).hashLog2
      = max 1 (bitC (hashPartInit t - (chooseArr t).2) + 1) := by
    rw [recomputeSize_eq]
    exact hH
  have hhs : (recomputeSize t).hashSize = 2 ^ (recomputeSize t).hashLog2 := rfl
  refine ⟨⟨by rw [recomputeSize_eq]; exact hA, hhl2⟩, chooseArr_spec t, hhp1, ?_, ?_, ?_⟩
  · have hpow : hashPartInit t - (chooseArr t).2
        < 2 ^ (bitC (hashPartInit t - (chooseArr t).2) + 1) := by
      rw [bitC_eq_log2]
      exact (Nat.log2_lt (by omega)).mp (Nat.lt_succ_self _)
    have hmono : (2:Nat) ^ (bitC (hashPartInit t - (chooseArr t).2) + 1)
        ≤ 2 ^ (max 1 (bitC (hashPartInit t - (chooseArr t).2) + 1)) :=
      Nat.pow_le_pow_right (by omega) (le_max_right _ _)
    rw [hhs, hhl2]
    omega
  · have h21 : (2:Nat) ^ (1:Nat) ≤ 2 ^ (max 1 (bitC (hashPartInit t - (chooseArr t).2) + 1)) :=
      Nat.pow_le_pow_right (by omega) (le_max_left _ _)
    rw [hhs, hhl2]
    have : (2:Nat) ^ (1:Nat) = 2 := by norm_num
    omega
  · intro e he hlt
    rw [hhl2]
    have hne : hashPartInit t - (chooseArr t).2 ≠ 0 := by omega
    have hlog := (Nat.log2_lt hne).mpr hlt
    rw [bitC_eq_log2]
    omega

set_option maxRecDepth 40000 in
/-- C7, witness: the amended size selection applied to `oneEntryState`
(whose hash-segment length matches its declared hash size). -/
theorem C7_size_selection_witness :
    oneEntryState.hseg.length = oneEntryState.hashSize ∧
    ((recomputeSize oneEntryState).arrLog2 = (chooseArr oneEntryState).1 ∧
     (recomputeSize oneEntryState).hashLog2
       = max 1 (bitC (hashPartInit oneEntryState - (chooseArr oneEntryState).2) + 1)) :=
  ⟨by decide, (C7_size_selection Nat oneEntryState (by decide)).1⟩

/-- C8, counterexample: erasing the absent key `-1` from the empty table
changes the table — the main-position slot is empty, so erase calls
`free` on it and pushes it onto the vacancy list. -/
theorem C8_counterexample :
    eraseK (mkTable Nat 0 1) (Key.KInt (-1)) ≠ mkTable Nat 0 1 := by
  decide

/-- C8, amended: erasing an absent key from a well-formed table (in-range
chain links between occupied slots, clean empty slots) returns normally and
leaves the sizes, array segment, scan cursor, and every slot's key, value
and chain link unchanged; only free-list bookkeeping (`vacancy`,
`vacancy_next`) may change. -/
theorem C8_erase_absent (V : Type) (t : Table V) (k : Key) (hwf : wfLite t)
    (hchain : chainOK t) (hclean : emptyClean t) (habs : queryK t k = none) :
    coreEq t (eraseK t k) ∧ (eraseK t k).lastFree = t.lastFree :=
  eraseK_miss t k hwf hchain hclean habs

/-- C8, witness: erasing the absent key `5` from the empty table. -/
theorem C8_erase_absent_witness :
    wfLite (mkTable Nat 0 1) ∧ chainOK (mkTable Nat 0 1) ∧ emptyClean (mkTable Nat 0 1) ∧
    queryK (mkTable Nat 0 1) (Key.KInt 5) = none ∧
    (coreEq (mkTable Nat 0 1) (eraseK (mkTable Nat 0 1) (Key.KInt 5)) ∧
     (eraseK (mkTable Nat 0 1) (Key.KInt 5)).lastFree = (mkTable Nat 0 1).lastFree) :=
  ⟨wfLite_mkTable 0 1 (by omega), by decide, by decide, by decide,
    C8_erase_absent Nat (mkTable Nat 0 1) (Key.KInt 5) (wfLite_mkTable 0 1 (by omega))
      (by decide) (by decide) (by decide)⟩

/-- C9: keys equal under the key model's equality (with consistent hash
caches: unset or holding the registered hash) compute identical hashes, and
repeated hash computations on the same key — including the caching update
of the first call on an `H` key — return the same value. -/
theorem C9_hash_deterministic (k1 k2 : Key) (h1 : cacheOK k1) (h2 : cacheOK k2)
    (heq : keyEq k1 k2 = true) :
    (keyHashC k1).1 = (keyHashC k2).1 ∧
    ∀ k : Key, (keyHashC (keyHashC k).2).1 = (keyHashC k).1 :=
  ⟨keyHashC_congr k1 k2 h1 h2 heq, keyHashC_idem⟩

/-- C9, witness: hash determinism at an `H` key with an unset cache. -/
theorem C9_hash_deterministic_witness :
    cacheOK (Key.KH 5 0) ∧ keyEq (Key.KH 5 0) (Key.KH 5 0) = true ∧
    ((keyHashC (Key.KH 5 0)).1 = (keyHashC (Key.KH 5 0)).1 ∧
     ∀ k : Key, (keyHashC (keyHashC k).2).1 = (keyHashC k).1) :=
  ⟨Or.inl rfl, by decide,
    C9_hash_deterministic (Key.KH 5 0) (Key.KH 5 0) (Or.inl rfl) (Or.inl rfl) (by decide)⟩

/-- C10: a NaN `Number` key compares unequal to every key including itself;
after inserting under a NaN key the entry is stored but `query` with that
key returns null on any table, and `erase` with a NaN key never removes an
entry (shown in general by the unchanged live count, and concretely on the
table holding the NaN entry, which erase leaves identical). -/
theorem C10_nan_key_behavior :
    (∀ kk : Key, keyEq (Key.KNum NumV.nan) kk = false ∧
      keyEq kk (Key.KNum NumV.nan) = false) ∧
    (∀ (V : Type) (t : Table V) (v : V),
      queryK (insertK t (Key.KNum NumV.nan) v) (Key.KNum NumV.nan) = none) ∧
    (∀ (V : Type) (t : Table V), countLive (eraseK t (Key.KNum NumV.nan)) = countLive t) ∧
    countLive (insertK (mkTable Nat 0 1) (Key.KNum NumV.nan) 7) = 1 ∧
    eraseK (insertK (mkTable Nat 0 1) (Key.KNum NumV.nan) 7) (Key.KNum NumV.nan)
      = insertK (mkTable Nat 0 1) (Key.KNum NumV.nan) 7 :=
  ⟨fun kk => ⟨keyEq_nan_left kk, keyEq_nan_right kk⟩,
   fun _ t _ => queryK_nan _,
   fun _ t => countLive_eraseK_nan t,
   by decide, by decide⟩

end HT
